import Mathlib

/-!
Verification of the Sorbet core against its specification.

Shallow embedding, in Lean 4, of the parts of the Sorbet type checker that
the specification's claims are about:

* the type algebra (`isSubType`, `lub`, `glb`) over class hierarchies with
  linearizations (the implementation lives in `core/types/`, which is not in
  the provided sources; it is modelled from the specification, §4.2, and
  checked against the in-tree test `infer/test/infer_test.cc`);
* packed source locations (`core/Loc.h`);
* global-state substitution and its fast path (`core/Context.cc`);
* the LSP request queue: edit merging, cancellation and the coordinator
  loop (`main/lsp/protocol.cc`);
* the workspace-symbols query (`main/lsp/requests/workspace_symbols.cc`).

C++ `ENFORCE` assertions are modelled as `Option`-valued constructors or
explicit assertion-failure outcomes (debug-build semantics).
-/

namespace Sorbet

/-! ## Type algebra (modelled from the spec, §4.2)

`core/types/` is absent from the provided sources. The data model and the
operations below follow the specification: a class is identified by an
integer symbol id, and a hierarchy assigns every class its linearization,
"ordered from most- to least-specific" (spec glossary). -/

/-- Modelled from the spec: the class hierarchy underlying the type algebra
(`core/GlobalState` symbol table, absent from the provided sources). `lin c`
is the linearization of class `c`, ordered from most- to least-specific. -/
structure Hierarchy where
  lin : Nat → List Nat

/-- Modelled from the spec: the sealed sum of type shapes (`core/Types.h`,
absent from the provided sources). Only the variants the claims quantify
over are included: the distinguished constants `top`, `bottom`, `untyped`,
class types, literal types (a proxy wrapping an underlying class), unions
and intersections. -/
inductive Ty where
  | top : Ty
  | bot : Ty
  | untyped : Ty
  | classType (sym : Nat) : Ty
  | lit (underlying : Nat) (value : Nat) : Ty
  | orType (left right : Ty) : Ty
  | andType (left right : Ty) : Ty
deriving DecidableEq, Repr

namespace Types

/-- Modelled from the spec: `is_subtype` (spec §4.2). Rule numbers refer to
the spec's priority list. Rules 6-9 are applied losslessly first (union on
the left and intersection on the right decompose completely) and the lossy
directions afterwards, with the (intersection, union) pair trying all four
decompositions; a strictly textual ordering of rules 6-9 would contradict
the invariants stated in the same section ("join produces a supertype of
both inputs; meet produces a subtype of both") already at
`meet(A | B, C) <= A | B`. Literal types are proxies (rules 4 and 10): a
literal is a subtype of whatever its underlying class is a subtype of, and
nothing but an equal literal is a subtype of a literal. -/
def isSubType (h : Hierarchy) (a b : Ty) : Bool :=
  if a = .untyped ∨ b = .untyped then true         -- rule 1
  else if b = .top then true                       -- rule 2 (top on the right)
  else if a = .bot then true                       -- rule 2 (bottom on the left)
  else if a = b then true                          -- rule 3
  else
    match a, b with
    | .orType a1 a2, b => isSubType h a1 b && isSubType h a2 b          -- rule 6
    | a, .andType b1 b2 => isSubType h a b1 && isSubType h a b2         -- rule 9
    | .andType a1 a2, .orType b1 b2 =>                                  -- rules 8 and 7
        isSubType h a1 (.orType b1 b2) || isSubType h a2 (.orType b1 b2) ||
        isSubType h (.andType a1 a2) b1 || isSubType h (.andType a1 a2) b2
    | .andType a1 a2, b => isSubType h a1 b || isSubType h a2 b         -- rule 8
    | a, .orType b1 b2 => isSubType h a b1 || isSubType h a b2          -- rule 7
    | .lit c _, .classType d => (h.lin c).contains d                    -- rules 4, 10
    | .classType c, .classType d => (h.lin c).contains d                -- rule 12
    | _, _ => false
termination_by sizeOf a + sizeOf b
decreasing_by all_goals simp_arith

/-- Modelled from the spec: the nearest common ancestor of two classes, the
first entry of `c`'s linearization that also appears in `d`'s. -/
def lca (h : Hierarchy) (c d : Nat) : Option Nat :=
  (h.lin c).find? (fun x => (h.lin d).contains x)

/-- Modelled from the spec: `join` (`Types::any` in the source). Absorbs
`untyped`, short-circuits when one side is a subtype of the other, reduces
class pairs to their nearest common ancestor in the linearization, and
produces an `OrType` otherwise. -/
def lub (h : Hierarchy) (a b : Ty) : Ty :=
  if a = .untyped ∨ b = .untyped then .untyped
  else if isSubType h a b then b
  else if isSubType h b a then a
  else
    match a, b with
    | .classType c, .classType d =>
        match lca h c d with
        | some e => .classType e
        | none => .orType a b
    | _, _ => .orType a b

/-- Modelled from the spec: `meet` (`Types::all` in the source). Absorbs
`untyped`, short-circuits when one side is a subtype of the other, collapses
incomparable class pairs to `bottom` (a value cannot be an instance of two
unrelated classes), and produces an `AndType` otherwise. -/
def glb (h : Hierarchy) (a b : Ty) : Ty :=
  if a = .untyped ∨ b = .untyped then .untyped
  else if isSubType h a b then a
  else if isSubType h b a then b
  else
    match a, b with
    | .classType _, .classType _ => .bot
    | _, _ => .andType a b

/-- Modelled from the spec: `Types::equiv`, mutual subtyping. -/
def equiv (h : Hierarchy) (a b : Ty) : Bool :=
  isSubType h a b && isSubType h b a

end Types

end Sorbet
namespace Sorbet
namespace Types

theorem sub_untyped_left (h : Hierarchy) (b : Ty) : isSubType h .untyped b = true := by
  rw [isSubType.eq_def]; simp

theorem sub_untyped_right (h : Hierarchy) (a : Ty) : isSubType h a .untyped = true := by
  rw [isSubType.eq_def]; simp

theorem sub_top_right (h : Hierarchy) (a : Ty) : isSubType h a .top = true := by
  rw [isSubType.eq_def]
  by_cases ha : a = Ty.untyped <;> simp [ha]

theorem sub_bot_left (h : Hierarchy) (b : Ty) : isSubType h .bot b = true := by
  rw [isSubType.eq_def]
  split_ifs <;> simp_all

theorem isSubType_refl (h : Hierarchy) (a : Ty) : isSubType h a a = true := by
  rw [isSubType.eq_def]
  split_ifs with h1 h2 h3 h4 <;> first | rfl | exact absurd rfl h4

theorem or_left_eq (h : Hierarchy) (x y b : Ty) :
    isSubType h (.orType x y) b =
      (if b = .untyped then true
       else if b = .top then true
       else if Ty.orType x y = b then true
       else isSubType h x b && isSubType h y b) := by
  rw [isSubType.eq_def]; simp

theorem or_left_intro (h : Hierarchy) {x y b : Ty} (hx : isSubType h x b = true)
    (hy : isSubType h y b = true) : isSubType h (.orType x y) b = true := by
  rw [or_left_eq]
  split_ifs <;> simp [hx, hy]

theorem and_right_eq (h : Hierarchy) (a b1 b2 : Ty) (ha : ∀ x y, a ≠ Ty.orType x y) :
    isSubType h a (.andType b1 b2) =
      (if a = .untyped then true
       else if a = .bot then true
       else if a = Ty.andType b1 b2 then true
       else isSubType h a b1 && isSubType h a b2) := by
  rw [isSubType.eq_def]
  cases a <;> simp_all

theorem andor_eq (h : Hierarchy) (x y b1 b2 : Ty) :
    isSubType h (.andType x y) (.orType b1 b2) =
      (isSubType h x (.orType b1 b2) || isSubType h y (.orType b1 b2) ||
       isSubType h (.andType x y) b1 || isSubType h (.andType x y) b2) := by
  rw [isSubType.eq_def]; simp

theorem and_left_eq (h : Hierarchy) (x y b : Ty) (hb1 : b ≠ .untyped) (hb2 : b ≠ .top)
    (hb3 : ∀ u v, b ≠ Ty.orType u v) (hb4 : ∀ u v, b ≠ Ty.andType u v)
    (hne : Ty.andType x y ≠ b) :
    isSubType h (.andType x y) b = (isSubType h x b || isSubType h y b) := by
  rw [isSubType.eq_def]
  cases b <;> simp_all

theorem class_class_eq (h : Hierarchy) (c d : Nat) (hne : c ≠ d) :
    isSubType h (.classType c) (.classType d) = (h.lin c).contains d := by
  rw [isSubType.eq_def]
  simp [hne]

theorem lit_class_eq (h : Hierarchy) (c v d : Nat) :
    isSubType h (.lit c v) (.classType d) = (h.lin c).contains d := by
  rw [isSubType.eq_def]
  simp

end Types
end Sorbet

namespace Sorbet
namespace Types

theorem sub_or_right (h : Hierarchy) : ∀ (a b1 b2 : Ty),
    (isSubType h a b1 = true ∨ isSubType h a b2 = true) →
    isSubType h a (.orType b1 b2) = true := by
  intro a
  induction a with
  | untyped => intro b1 b2 _; exact sub_untyped_left h _
  | bot => intro b1 b2 _; exact sub_bot_left h _
  | top =>
    intro b1 b2 hab
    rcases hab with hb | hb <;> (rw [isSubType.eq_def]; simp [hb])
  | classType c =>
    intro b1 b2 hab
    rcases hab with hb | hb <;> (rw [isSubType.eq_def]; simp [hb])
  | lit c v =>
    intro b1 b2 hab
    rcases hab with hb | hb <;> (rw [isSubType.eq_def]; simp [hb])
  | andType x y IHx IHy =>
    intro b1 b2 hab
    rw [andor_eq]
    rcases hab with hb | hb <;> simp [hb]
  | orType p q IHp IHq =>
    intro b1 b2 hab
    have elim_pq : ∀ r : Ty, isSubType h (.orType p q) r = true →
        isSubType h p r = true ∧ isSubType h q r = true := by
      intro r hb
      rw [or_left_eq] at hb
      split_ifs at hb with hu ht he
      · subst hu; exact ⟨sub_untyped_right h p, sub_untyped_right h q⟩
      · subst ht; exact ⟨sub_top_right h p, sub_top_right h q⟩
      · rw [← he]
        exact ⟨IHp p q (Or.inl (isSubType_refl h p)), IHq p q (Or.inr (isSubType_refl h q))⟩
      · exact Bool.and_eq_true_iff.mp hb
    rcases hab with hb | hb
    · rcases elim_pq b1 hb with ⟨hp, hq⟩
      exact or_left_intro h (IHp b1 b2 (Or.inl hp)) (IHq b1 b2 (Or.inl hq))
    · rcases elim_pq b2 hb with ⟨hp, hq⟩
      exact or_left_intro h (IHp b1 b2 (Or.inr hp)) (IHq b1 b2 (Or.inr hq))

theorem or_left_elim (h : Hierarchy) {x y b : Ty}
    (hxy : isSubType h (.orType x y) b = true) :
    isSubType h x b = true ∧ isSubType h y b = true := by
  rw [or_left_eq] at hxy
  split_ifs at hxy with hu ht he
  · subst hu; exact ⟨sub_untyped_right h x, sub_untyped_right h y⟩
  · subst ht; exact ⟨sub_top_right h x, sub_top_right h y⟩
  · rw [← he]
    exact ⟨sub_or_right h x x y (Or.inl (isSubType_refl h x)),
           sub_or_right h y x y (Or.inr (isSubType_refl h y))⟩
  · exact Bool.and_eq_true_iff.mp hxy

theorem and_aux (h : Hierarchy) : ∀ n : Nat,
    (∀ a b1 b2 : Ty, sizeOf a + sizeOf b1 + sizeOf b2 ≤ n →
      isSubType h a (.andType b1 b2) = true →
      isSubType h a b1 = true ∧ isSubType h a b2 = true) ∧
    (∀ x y b : Ty, sizeOf x + sizeOf y + sizeOf b ≤ n →
      (isSubType h x b = true ∨ isSubType h y b = true) →
      isSubType h (.andType x y) b = true) := by
  intro n
  induction n using Nat.strong_induction_on with
  | _ n IH =>
    constructor
    · intro a b1 b2 hn hsub
      cases a with
      | untyped => exact ⟨sub_untyped_left h _, sub_untyped_left h _⟩
      | bot => exact ⟨sub_bot_left h _, sub_bot_left h _⟩
      | top =>
        rw [and_right_eq h _ b1 b2 (by simp)] at hsub
        simpa using hsub
      | classType c =>
        rw [and_right_eq h _ b1 b2 (by simp)] at hsub
        simpa using hsub
      | lit c v =>
        rw [and_right_eq h _ b1 b2 (by simp)] at hsub
        simpa using hsub
      | orType x y =>
        rcases or_left_elim h hsub with ⟨hx, hy⟩
        have hx' := (IH (sizeOf x + sizeOf b1 + sizeOf b2) (by simp at hn ⊢; omega)).1
          x b1 b2 le_rfl hx
        have hy' := (IH (sizeOf y + sizeOf b1 + sizeOf b2) (by simp at hn ⊢; omega)).1
          y b1 b2 le_rfl hy
        exact ⟨or_left_intro h hx'.1 hy'.1, or_left_intro h hx'.2 hy'.2⟩
      | andType x y =>
        rw [and_right_eq h _ b1 b2 (by simp)] at hsub
        by_cases heq : Ty.andType x y = Ty.andType b1 b2
        · rcases Ty.andType.injEq x y b1 b2 ▸ heq with ⟨rfl, rfl⟩
          constructor
          · exact (IH (sizeOf x + sizeOf y + sizeOf x) (by simp at hn ⊢; omega)).2
              x y x le_rfl (Or.inl (isSubType_refl h x))
          · exact (IH (sizeOf x + sizeOf y + sizeOf y) (by simp at hn ⊢; omega)).2
              x y y le_rfl (Or.inr (isSubType_refl h y))
        · rw [if_neg (by simp), if_neg (by simp), if_neg heq] at hsub
          exact Bool.and_eq_true_iff.mp hsub
    · intro x y b hn hxy
      cases b with
      | untyped => exact sub_untyped_right h _
      | top => exact sub_top_right h _
      | bot =>
        rw [and_left_eq h x y _ (by simp) (by simp) (by simp) (by simp) (by simp)]
        rcases hxy with hb | hb <;> simp [hb]
      | classType c =>
        rw [and_left_eq h x y _ (by simp) (by simp) (by simp) (by simp) (by simp)]
        rcases hxy with hb | hb <;> simp [hb]
      | lit c v =>
        rw [and_left_eq h x y _ (by simp) (by simp) (by simp) (by simp) (by simp)]
        rcases hxy with hb | hb <;> simp [hb]
      | orType b1 b2 =>
        rw [andor_eq]
        rcases hxy with hb | hb <;> simp [hb]
      | andType b1 b2 =>
        by_cases heq : Ty.andType x y = Ty.andType b1 b2
        · rw [heq]; exact isSubType_refl h _
        · rw [and_right_eq h _ b1 b2 (by simp), if_neg (by simp), if_neg (by simp),
            if_neg heq, Bool.and_eq_true]
          rcases hxy with hb | hb
          · have he := (IH (sizeOf x + sizeOf b1 + sizeOf b2) (by simp at hn ⊢; omega)).1
              x b1 b2 le_rfl hb
            constructor
            · exact (IH (sizeOf x + sizeOf y + sizeOf b1) (by simp at hn ⊢; omega)).2
                x y b1 le_rfl (Or.inl he.1)
            · exact (IH (sizeOf x + sizeOf y + sizeOf b2) (by simp at hn ⊢; omega)).2
                x y b2 le_rfl (Or.inl he.2)
          · have he := (IH (sizeOf y + sizeOf b1 + sizeOf b2) (by simp at hn ⊢; omega)).1
              y b1 b2 le_rfl hb
            constructor
            · exact (IH (sizeOf x + sizeOf y + sizeOf b1) (by simp at hn ⊢; omega)).2
                x y b1 le_rfl (Or.inr he.1)
            · exact (IH (sizeOf x + sizeOf y + sizeOf b2) (by simp at hn ⊢; omega)).2
                x y b2 le_rfl (Or.inr he.2)

theorem and_right_elim (h : Hierarchy) {a b1 b2 : Ty}
    (hsub : isSubType h a (.andType b1 b2) = true) :
    isSubType h a b1 = true ∧ isSubType h a b2 = true :=
  (and_aux h _).1 a b1 b2 le_rfl hsub

theorem and_left_intro (h : Hierarchy) {x y b : Ty}
    (hxy : isSubType h x b = true ∨ isSubType h y b = true) :
    isSubType h (.andType x y) b = true :=
  (and_aux h _).2 x y b le_rfl hxy

theorem and_right_intro (h : Hierarchy) : ∀ (a : Ty) {b1 b2 : Ty},
    isSubType h a b1 = true → isSubType h a b2 = true →
    isSubType h a (.andType b1 b2) = true := by
  intro a
  induction a with
  | untyped => intro b1 b2 _ _; exact sub_untyped_left h _
  | bot => intro b1 b2 _ _; exact sub_bot_left h _
  | top =>
    intro b1 b2 h1 h2
    rw [and_right_eq h _ b1 b2 (by simp)]
    split_ifs <;> simp [h1, h2]
  | classType c =>
    intro b1 b2 h1 h2
    rw [and_right_eq h _ b1 b2 (by simp)]
    split_ifs <;> simp [h1, h2]
  | lit c v =>
    intro b1 b2 h1 h2
    rw [and_right_eq h _ b1 b2 (by simp)]
    split_ifs <;> simp [h1, h2]
  | andType x y IHx IHy =>
    intro b1 b2 h1 h2
    rw [and_right_eq h _ b1 b2 (by simp)]
    split_ifs <;> simp [h1, h2]
  | orType x y IHx IHy =>
    intro b1 b2 h1 h2
    rcases or_left_elim h h1 with ⟨hx1, hy1⟩
    rcases or_left_elim h h2 with ⟨hx2, hy2⟩
    exact or_left_intro h (IHx hx1 hx2) (IHy hy1 hy2)

end Types
end Sorbet

namespace Sorbet
namespace Types

theorem mem_of_contains {l : List Nat} {a : Nat} (hc : l.contains a = true) : a ∈ l := by
  simpa using hc

theorem contains_of_mem {l : List Nat} {a : Nat} (hm : a ∈ l) : l.contains a = true := by
  simpa using hm

theorem find?_first {α : Type} [DecidableEq α] {p : α → Bool} :
    ∀ {l : List α} {x : α}, l.find? p = some x → ∀ y ∈ l, p y = true →
      l.indexOf x ≤ l.indexOf y := by
  intro l
  induction l with
  | nil => intro x hfind; simp at hfind
  | cons a t IHt =>
    intro x hfind y hy hpy
    by_cases hpa : p a = true
    · rw [List.find?_cons_of_pos _ hpa] at hfind
      cases hfind
      simp [List.indexOf_cons_self]
    · rw [List.find?_cons_of_neg _ hpa] at hfind
      have hpx : p x = true := List.find?_some hfind
      have hxa : x ≠ a := fun hcontra => hpa (hcontra ▸ hpx)
      have hya : y ≠ a := fun hcontra => hpa (hcontra ▸ hpy)
      have hyt : y ∈ t := by
        rcases List.mem_cons.mp hy with hcontra | hyt
        · exact absurd hcontra hya
        · exact hyt
      have := IHt hfind y hyt hpy
      rw [List.indexOf_cons_ne _ hxa.symm, List.indexOf_cons_ne _ hya.symm]
      omega

theorem lca_mem {h : Hierarchy} {c d e : Nat} (hl : Types.lca h c d = some e) :
    e ∈ h.lin c ∧ e ∈ h.lin d := by
  unfold Types.lca at hl
  exact ⟨List.mem_of_find?_eq_some hl, mem_of_contains (List.find?_some hl)⟩

end Types

/-- Well-formedness of a hierarchy's linearizations (spec glossary:
"a class's flattened inheritance list, ordered from most- to
least-specific"): every linearization starts with the class itself, a class
precedes its own ancestors in any linearization that contains it, and two
linearizations order their common entries consistently. -/
structure Hierarchy.Wf (h : Hierarchy) : Prop where
  head : ∀ c, ∃ t, h.lin c = c :: t
  before : ∀ {c d e : Nat}, d ∈ h.lin c → e ∈ h.lin d → e ≠ d →
    (h.lin c).indexOf d < (h.lin c).indexOf e
  consistent : ∀ {c d x y : Nat}, x ∈ h.lin c → x ∈ h.lin d → y ∈ h.lin c → y ∈ h.lin d →
    ((h.lin c).indexOf x ≤ (h.lin c).indexOf y ↔ (h.lin d).indexOf x ≤ (h.lin d).indexOf y)

namespace Types

theorem mem_lin_self {h : Hierarchy} (hw : h.Wf) (c : Nat) : c ∈ h.lin c := by
  obtain ⟨t, ht⟩ := hw.head c
  rw [ht]
  exact List.mem_cons_self c t

theorem lca_of_le {h : Hierarchy} (hw : h.Wf) {c d : Nat} (hmem : d ∈ h.lin c) :
    Types.lca h c d = some d := by
  have hsome : ((h.lin c).find? (fun x => (h.lin d).contains x)).isSome := by
    rw [List.find?_isSome]
    exact ⟨d, hmem, contains_of_mem (mem_lin_self hw d)⟩
  obtain ⟨e, he⟩ := Option.isSome_iff_exists.mp hsome
  have hed : e ∈ h.lin d := mem_of_contains (List.find?_some he)
  have hec : e ∈ h.lin c := List.mem_of_find?_eq_some he
  by_cases heq : e = d
  · rw [Types.lca, he, heq]
  · exfalso
    have h1 : (h.lin c).indexOf d < (h.lin c).indexOf e := hw.before hmem hed heq
    have h2 : (h.lin c).indexOf e ≤ (h.lin c).indexOf d :=
      find?_first he d hmem (contains_of_mem (mem_lin_self hw d))
    omega

theorem lca_of_ge {h : Hierarchy} (hw : h.Wf) {c d : Nat} (hmem : c ∈ h.lin d) :
    Types.lca h c d = some c := by
  obtain ⟨t, ht⟩ := hw.head c
  rw [Types.lca, ht, List.find?_cons_of_pos _ (contains_of_mem hmem)]

theorem lca_comm {h : Hierarchy} (hw : h.Wf) (c d : Nat) :
    Types.lca h c d = Types.lca h d c := by
  cases h1 : Types.lca h c d with
  | none =>
    cases h2 : Types.lca h d c with
    | none => rfl
    | some e =>
      exfalso
      rcases lca_mem h2 with ⟨hed, hec⟩
      have : ((h.lin c).find? (fun x => (h.lin d).contains x)).isSome := by
        rw [List.find?_isSome]
        exact ⟨e, hec, contains_of_mem hed⟩
      rw [Types.lca] at h1
      rw [h1] at this
      simp at this
  | some e =>
    rcases lca_mem h1 with ⟨hec, hed⟩
    cases h2 : Types.lca h d c with
    | none =>
      exfalso
      have : ((h.lin d).find? (fun x => (h.lin c).contains x)).isSome := by
        rw [List.find?_isSome]
        exact ⟨e, hed, contains_of_mem hec⟩
      rw [Types.lca] at h2
      rw [h2] at this
      simp at this
    | some f =>
      rcases lca_mem h2 with ⟨hfd, hfc⟩
      have h3 : (h.lin c).indexOf e ≤ (h.lin c).indexOf f := by
        rw [Types.lca] at h1
        exact find?_first h1 f hfc (contains_of_mem hfd)
      have h4 : (h.lin d).indexOf f ≤ (h.lin d).indexOf e := by
        rw [Types.lca] at h2
        exact find?_first h2 e hed (contains_of_mem hec)
      have h5 : (h.lin d).indexOf e ≤ (h.lin d).indexOf f :=
        (hw.consistent hec hed hfc hfd).mp h3
      have h6 : (h.lin d).indexOf e = (h.lin d).indexOf f := le_antisymm h5 h4
      have := (List.indexOf_inj hed hfd).mp h6
      rw [this]

end Types
end Sorbet
namespace Sorbet
namespace Types

theorem equiv_refl (h : Hierarchy) (a : Ty) : equiv h a a = true := by
  unfold equiv
  simp [isSubType_refl]

theorem equiv_or_comm (h : Hierarchy) (a b : Ty) :
    equiv h (.orType a b) (.orType b a) = true := by
  unfold equiv
  rw [Bool.and_eq_true]
  constructor
  · exact or_left_intro h (sub_or_right h a b a (Or.inr (isSubType_refl h a)))
      (sub_or_right h b b a (Or.inl (isSubType_refl h b)))
  · exact or_left_intro h (sub_or_right h b a b (Or.inr (isSubType_refl h b)))
      (sub_or_right h a a b (Or.inl (isSubType_refl h a)))

theorem equiv_and_comm (h : Hierarchy) (a b : Ty) :
    equiv h (.andType a b) (.andType b a) = true := by
  unfold equiv
  rw [Bool.and_eq_true]
  constructor
  · exact and_right_intro h _ (and_left_intro h (Or.inr (isSubType_refl h b)))
      (and_left_intro h (Or.inl (isSubType_refl h a)))
  · exact and_right_intro h _ (and_left_intro h (Or.inr (isSubType_refl h a)))
      (and_left_intro h (Or.inl (isSubType_refl h b)))

theorem lub_ub (h : Hierarchy) (a b : Ty) :
    isSubType h a (lub h a b) = true ∧ isSubType h b (lub h a b) = true := by
  unfold lub
  split_ifs with h1 h2 h3
  · exact ⟨sub_untyped_right h a, sub_untyped_right h b⟩
  · exact ⟨h2, isSubType_refl h b⟩
  · exact ⟨isSubType_refl h a, h3⟩
  · split
    · rename_i c d
      cases hl : lca h c d with
      | some e =>
        rcases lca_mem hl with ⟨hec, hed⟩
        constructor
        · by_cases hce : c = e
          · rw [hce]; exact isSubType_refl h _
          · rw [class_class_eq h c e hce]; exact contains_of_mem hec
        · by_cases hde : d = e
          · rw [hde]; exact isSubType_refl h _
          · rw [class_class_eq h d e hde]; exact contains_of_mem hed
      | none =>
        exact ⟨sub_or_right h _ _ _ (Or.inl (isSubType_refl h _)),
               sub_or_right h _ _ _ (Or.inr (isSubType_refl h _))⟩
    · exact ⟨sub_or_right h _ _ _ (Or.inl (isSubType_refl h _)),
             sub_or_right h _ _ _ (Or.inr (isSubType_refl h _))⟩

theorem glb_lb (h : Hierarchy) (a b : Ty) :
    isSubType h (glb h a b) a = true ∧ isSubType h (glb h a b) b = true := by
  unfold glb
  split_ifs with h1 h2 h3
  · rcases h1 with h1 | h1 <;> rw [h1] <;>
      exact ⟨sub_untyped_left h _, sub_untyped_left h _⟩
  · exact ⟨isSubType_refl h a, h2⟩
  · exact ⟨h3, isSubType_refl h b⟩
  · split
    · exact ⟨sub_bot_left h _, sub_bot_left h _⟩
    · exact ⟨and_left_intro h (Or.inl (isSubType_refl h _)),
             and_left_intro h (Or.inr (isSubType_refl h _))⟩

theorem lub_comm (h : Hierarchy) (hw : h.Wf) (a b : Ty) :
    equiv h (lub h a b) (lub h b a) = true := by
  unfold lub
  by_cases h1 : a = Ty.untyped ∨ b = Ty.untyped
  · rw [if_pos h1, if_pos (Or.symm h1)]
    exact equiv_refl h _
  · rw [if_neg h1, if_neg (fun hc => h1 (Or.symm hc))]
    by_cases hab : isSubType h a b = true
    · by_cases hba : isSubType h b a = true
      · rw [if_pos hab, if_pos hba]
        unfold equiv
        simp [hab, hba]
      · rw [if_pos hab, if_neg hba, if_pos hab]
        exact equiv_refl h _
    · by_cases hba : isSubType h b a = true
      · rw [if_neg hab, if_pos hba, if_pos hba]
        exact equiv_refl h _
      · rw [if_neg hab, if_neg hba, if_neg hba, if_neg hab]
        cases a <;> cases b <;>
          first
          | exact equiv_or_comm h _ _
          | (rename_i c d
             dsimp only
             rw [lca_comm hw c d]
             cases hl : lca h d c with
             | some e => simp only [hl]; exact equiv_refl h _
             | none => simp only [hl]; exact equiv_or_comm h _ _)

theorem glb_comm (h : Hierarchy) (a b : Ty) :
    equiv h (glb h a b) (glb h b a) = true := by
  unfold glb
  by_cases h1 : a = Ty.untyped ∨ b = Ty.untyped
  · rw [if_pos h1, if_pos (Or.symm h1)]
    exact equiv_refl h _
  · rw [if_neg h1, if_neg (fun hc => h1 (Or.symm hc))]
    by_cases hab : isSubType h a b = true
    · by_cases hba : isSubType h b a = true
      · rw [if_pos hab, if_pos hba]
        unfold equiv
        simp [hab, hba]
      · rw [if_pos hab, if_neg hba, if_pos hab]
        exact equiv_refl h _
    · by_cases hba : isSubType h b a = true
      · rw [if_neg hab, if_pos hba, if_pos hba]
        exact equiv_refl h _
      · rw [if_neg hab, if_neg hba, if_neg hba, if_neg hab]
        cases a <;> cases b <;>
          first
          | exact equiv_and_comm h _ _
          | exact equiv_refl h _

theorem class_sub_mem {h : Hierarchy} (hw : h.Wf) {c d : Nat}
    (hsub : isSubType h (.classType c) (.classType d) = true) : d ∈ h.lin c := by
  by_cases hcd : c = d
  · exact hcd ▸ mem_lin_self hw c
  · rw [class_class_eq h c d hcd] at hsub
    exact mem_of_contains hsub

theorem class_sub_antisymm {h : Hierarchy} (hw : h.Wf) {c d : Nat}
    (h1 : isSubType h (.classType c) (.classType d) = true)
    (h2 : isSubType h (.classType d) (.classType c) = true) : c = d := by
  by_contra hne
  have hm1 : d ∈ h.lin c := class_sub_mem hw h1
  have hm2 : c ∈ h.lin d := class_sub_mem hw h2
  have hb : (h.lin c).indexOf d < (h.lin c).indexOf c :=
    hw.before hm1 hm2 hne
  obtain ⟨t, ht⟩ := hw.head c
  rw [ht] at hb
  simp [List.indexOf_cons_self] at hb

theorem lub_classes (h : Hierarchy) (hw : h.Wf) {c d e : Nat}
    (hl : lca h c d = some e) :
    lub h (.classType c) (.classType d) = .classType e := by
  unfold lub
  rw [if_neg (by simp)]
  by_cases hab : isSubType h (.classType c) (.classType d) = true
  · rw [if_pos hab]
    have hmem := class_sub_mem hw hab
    rw [lca_of_le hw hmem] at hl
    cases hl
    rfl
  · by_cases hba : isSubType h (.classType d) (.classType c) = true
    · rw [if_neg hab, if_pos hba]
      have hmem := class_sub_mem hw hba
      rw [lca_of_ge hw hmem] at hl
      cases hl
      rfl
    · rw [if_neg hab, if_neg hba]
      simp only [hl]

theorem glb_classes_le (h : Hierarchy) {c d : Nat}
    (hab : isSubType h (.classType c) (.classType d) = true) :
    glb h (.classType c) (.classType d) = .classType c := by
  unfold glb
  rw [if_neg (by simp), if_pos hab]

theorem glb_classes_ge (h : Hierarchy) (hw : h.Wf) {c d : Nat}
    (hba : isSubType h (.classType d) (.classType c) = true) :
    glb h (.classType c) (.classType d) = .classType d := by
  by_cases hab : isSubType h (.classType c) (.classType d) = true
  · have := class_sub_antisymm hw hab hba
    subst this
    exact glb_classes_le h hab
  · unfold glb
    rw [if_neg (by simp), if_neg hab, if_pos hba]

theorem glb_classes_none (h : Hierarchy) {c d : Nat}
    (hab : ¬ isSubType h (.classType c) (.classType d) = true)
    (hba : ¬ isSubType h (.classType d) (.classType c) = true) :
    glb h (.classType c) (.classType d) = .bot := by
  unfold glb
  rw [if_neg (by simp), if_neg hab, if_neg hba]

end Types
end Sorbet
namespace Sorbet

/-- The class hierarchy of the in-tree test scenario `ClassesLubs` /
`ClassesGlbs` (`infer/test/infer_test.cc`): `class Bar; end; class Foo1 <
Bar; end; class Foo2 < Bar; end`, with `Bar` as symbol 0, `Foo1` as 1 and
`Foo2` as 2; every other symbol id is an isolated class. -/
def sibLin : Nat → List Nat
  | 1 => [1, 0]
  | 2 => [2, 0]
  | n => [n]

/-- The hierarchy wrapping `sibLin`. -/
def sibH : Hierarchy := ⟨sibLin⟩

theorem sib_mem {c z : Nat} (hz : z ∈ sibLin c) :
    z = c ∨ ((c = 1 ∨ c = 2) ∧ z = 0) := by
  match c with
  | 0 => simp [sibLin] at hz; exact Or.inl hz
  | 1 =>
    simp [sibLin] at hz
    rcases hz with rfl | rfl
    · exact Or.inl rfl
    · exact Or.inr ⟨Or.inl rfl, rfl⟩
  | 2 =>
    simp [sibLin] at hz
    rcases hz with rfl | rfl
    · exact Or.inl rfl
    · exact Or.inr ⟨Or.inr rfl, rfl⟩
  | n + 3 => simp [sibLin] at hz; exact Or.inl hz

theorem sib_common {c d z : Nat} (hne : c ≠ d) (hzc : z ∈ sibLin c)
    (hzd : z ∈ sibLin d) : z = 0 := by
  rcases sib_mem hzc with rfl | ⟨hc, rfl⟩
  · rcases sib_mem hzd with rfl | ⟨hd, rfl⟩
    · exact absurd rfl hne
    · rfl
  · rfl

theorem sibH_wf : sibH.Wf := by
  constructor
  · intro c
    match c with
    | 0 => exact ⟨[], rfl⟩
    | 1 => exact ⟨[0], rfl⟩
    | 2 => exact ⟨[0], rfl⟩
    | n + 3 => exact ⟨[], rfl⟩
  · intro c d e hd he hne
    match c with
    | 0 =>
      simp only [sibH, sibLin] at hd
      rw [List.mem_singleton] at hd
      subst hd
      simp only [sibH, sibLin] at he
      rw [List.mem_singleton] at he
      exact absurd he hne
    | 1 =>
      simp only [sibH, sibLin] at hd
      rcases List.mem_pair.mp hd with rfl | rfl
      · simp only [sibH, sibLin] at he
        rcases List.mem_pair.mp he with rfl | rfl
        · exact absurd rfl hne
        · decide
      · simp only [sibH, sibLin] at he
        rw [List.mem_singleton] at he
        exact absurd he hne
    | 2 =>
      simp only [sibH, sibLin] at hd
      rcases List.mem_pair.mp hd with rfl | rfl
      · simp only [sibH, sibLin] at he
        rcases List.mem_pair.mp he with rfl | rfl
        · exact absurd rfl hne
        · decide
      · simp only [sibH, sibLin] at he
        rw [List.mem_singleton] at he
        exact absurd he hne
    | n + 3 =>
      simp only [sibH, sibLin] at hd
      rw [List.mem_singleton] at hd
      subst hd
      simp only [sibH, sibLin] at he
      rw [List.mem_singleton] at he
      exact absurd he hne
  · intro c d x y hxc hxd hyc hyd
    by_cases hcd : c = d
    · subst hcd; exact Iff.rfl
    · have hx0 : x = 0 := sib_common hcd hxc hxd
      have hy0 : y = 0 := sib_common hcd hyc hyd
      subst hx0; subst hy0
      exact iff_of_true le_rfl le_rfl

/-! ## Packed source locations (`core/Loc.h`) -/

/-- Embeds `Loc::INVALID_POS_LOC`, the 24-bit sentinel `0xffffff`. -/
def INVALID_POS_LOC : Nat := 0xffffff

/-- Embeds `core::Loc`: a location packed into 24-bit begin/end offsets and a
16-bit file reference. -/
structure Loc where
  beginLoc : Nat
  endLoc : Nat
  fileRef : Nat
deriving DecidableEq, Repr

namespace Loc

/-- The public constructor `Loc(FileRef file, u4 begin, u4 end)`. The three
`ENFORCE`s (`begin <= INVALID_POS_LOC`, `end <= INVALID_POS_LOC`,
`begin <= end`) are modelled as debug assertions: the constructor yields
`none` when one fires. The bit-fields truncate to 24 / 16 bits. -/
def mk? (file : Nat) (b e : Nat) : Option Loc :=
  if b ≤ INVALID_POS_LOC ∧ e ≤ INVALID_POS_LOC ∧ b ≤ e then
    Option.some ⟨b % 2 ^ 24, e % 2 ^ 24, file % 2 ^ 16⟩
  else Option.none

/-- Embeds `Loc::none(FileRef file)`: stores the sentinel in both offsets. -/
def locNone (file : Nat := 0) : Loc :=
  ⟨INVALID_POS_LOC, INVALID_POS_LOC, file % 2 ^ 16⟩

/-- Embeds `Loc::exists()`: the file reference is nonzero and neither offset is
the sentinel. -/
def exists' (l : Loc) : Bool :=
  decide (l.fileRef ≠ 0) && decide (l.endLoc ≠ INVALID_POS_LOC) &&
    decide (l.beginLoc ≠ INVALID_POS_LOC)

end Loc

/-! ## Global-state substitution (`core/Context.cc`) -/

/-- Embeds `core::Name`: the tagged sum `{Utf8 | Constant | Unique}` (spec §3);
inner name references are name-table indices. -/
inductive Name where
  | utf8 (raw : String)
  | cnst (original : Nat)
  | uniq (uniqueNameKind : Nat) (original : Nat) (num : Nat)
deriving DecidableEq, Repr

/-- The slice of `core::GlobalState` that `GlobalSubstitution` consults:
the name table and the sizes of the symbol and file tables. -/
structure GlobalState where
  names : List Name
  symbolsUsed : Nat
  filesUsed : Nat
deriving Repr

/-- Embeds `GlobalState::namesUsed()`. -/
def GlobalState.namesUsed (gs : GlobalState) : Nat := gs.names.length

/-- Modelled from the spec: `enter_name_utf8` (`core/GlobalState.cc`,
absent from the provided sources) "returns the existing id if present,
else appends". -/
def enterNameUTF8 (names : List Name) (s : String) : List Name × Nat :=
  match names.findIdx? (fun n => decide (n = Name.utf8 s)) with
  | Option.some i => (names, i)
  | Option.none => (names ++ [Name.utf8 s], names.length)

/-- Modelled from the spec: `enter_name_constant`, as above for the
`Constant` variant. -/
def enterNameConstant (names : List Name) (original : Nat) : List Name × Nat :=
  match names.findIdx? (fun n => decide (n = Name.cnst original)) with
  | Option.some i => (names, i)
  | Option.none => (names ++ [Name.cnst original], names.length)

/-- Modelled from the spec: `fresh_name_unique` "always creates;
monotonic". -/
def freshNameUnique (names : List Name) (kind original num : Nat) : List Name × Nat :=
  (names ++ [Name.uniq kind original num], names.length)

/-- The name-substitution build loop of `GlobalSubstitution`'s constructor
(`core/Context.cc`, lines 100-128): the first (empty) name maps to id 0
(`seenEmpty`); every later name is entered into the target state, with
inner references already substituted through the table built so far.
Returns the grown target name table and the substitution table. -/
def buildNameSubstitution : List Name → List Name → List Nat → Bool → List Name × List Nat
  | [], toNames, table, _ => (toNames, table)
  | nm :: rest, toNames, table, seenEmpty =>
    if seenEmpty then
      match nm with
      | .uniq k orig num =>
        let r := freshNameUnique toNames k (table.getD orig 0) num
        buildNameSubstitution rest r.1 (table ++ [r.2]) true
      | .utf8 s =>
        let r := enterNameUTF8 toNames s
        buildNameSubstitution rest r.1 (table ++ [r.2]) true
      | .cnst orig =>
        let r := enterNameConstant toNames (table.getD orig 0)
        buildNameSubstitution rest r.1 (table ++ [r.2]) true
    else
      buildNameSubstitution rest toNames (table ++ [0]) true

/-- Embeds `core::GlobalSubstitution`: the substitution table plus the fast-path
bit. -/
structure GlobalSubstitution where
  nameSubstitution : List Nat
  fastPath : Bool
deriving DecidableEq, Repr

namespace GlobalSubstitution

/-- Embeds `GlobalSubstitution::GlobalSubstitution(from, to, optionalCommonParent)`
(`core/Context.cc`, lines 64-142). `ENFORCE`s are modelled as debug
assertions (`none` when one fires): the symbol tables must have equal size
(line 69), and on the fast path the target must not be smaller than the
source (lines 92-93). The fast path is taken exactly when a common parent
is supplied and the source state's `namesUsed` and `symbolsUsed` equal the
parent's (lines 88-96); the name-substitution table is built only on the
slow path (line 98, `debug_mode` off). The file-table copy (lines 72-86)
only transfers file contents and does not feed the fast-path discriminator
or the name table, and is omitted here. -/
def mk? (gsFrom gsTo : GlobalState) (optionalCommonParent : Option GlobalState) :
    Option GlobalSubstitution :=
  if gsFrom.symbolsUsed ≠ gsTo.symbolsUsed then Option.none
  else
    let fastPath : Bool :=
      match optionalCommonParent with
      | Option.none => false
      | Option.some parent =>
        gsFrom.namesUsed == parent.namesUsed && gsFrom.symbolsUsed == parent.symbolsUsed
    if fastPath &&
        (decide (gsTo.namesUsed < gsFrom.namesUsed) ||
         decide (gsTo.symbolsUsed < gsFrom.symbolsUsed))
    then Option.none
    else
      Option.some
        { nameSubstitution :=
            if fastPath then []
            else (buildNameSubstitution gsFrom.names gsTo.names [] false).2
          fastPath := fastPath }

/-- Embeds `GlobalSubstitution::useFastPath()`. -/
def useFastPath (s : GlobalSubstitution) : Bool := s.fastPath

/-- Modelled from the spec: `GlobalSubstitution::substitute(NameRef)`
(`core/GlobalSubstitution.h`, absent from the provided sources). "When
`use_fast_path()` holds, the substitution is the identity and `substitute`
is a no-op map"; otherwise the recorded table maps the source id. -/
def substitute (s : GlobalSubstitution) (ref : Nat) : Nat :=
  if s.fastPath then ref else s.nameSubstitution.getD ref 0

end GlobalSubstitution

end Sorbet
namespace Sorbet

/-! ## LSP request queue (`main/lsp/protocol.cc`) -/

/-- Embeds `SorbetWorkspaceEditCounts`: the running per-edit-kind counters carried
by a merged workspace edit. -/
structure SorbetWorkspaceEditCounts where
  textDocumentDidOpen : Nat
  textDocumentDidChange : Nat
  textDocumentDidClose : Nat
  sorbetWatchmanFileChange : Nat
deriving DecidableEq, Repr

/-- Embeds `SorbetWorkspaceEdit`: one coalesced edit inside a merged workspace
edit (`EditorOpen` / `EditorChange` / `EditorClose` / `FileSystem`). -/
inductive SorbetWorkspaceEdit where
  | editorOpen (file : String)
  | editorChange (file : String)
  | editorClose (file : String)
  | fileSystem (files : List String)
deriving DecidableEq, Repr

/-- The slice of `LSPMessage` the queue algorithms consult: the five
mergeable edit notifications, requests (with id, `canceled` flag and
delayability), and all remaining messages collapsed to `other` with their
delayability. `isDelayable()` itself lives in the generated message code,
which is absent from the provided sources; per the spec a *delayable*
message is one that does not observe state, so it is modelled as an
attribute of the message. -/
inductive LSPMessage where
  | didOpen (file : String)
  | didChange (file : String)
  | didClose (file : String)
  | watchmanFileChange (files : List String)
  | workspaceEdit (counts : SorbetWorkspaceEditCounts) (changes : List SorbetWorkspaceEdit)
  | request (id : Nat) (canceled : Bool) (delayable : Bool)
  | other (delayable : Bool)
deriving DecidableEq, Repr

namespace LSPMessage

/-- Embeds `LSPMessage::isDelayable()` (modelled from the spec, see above); edit
notifications are never consulted for delayability by `mergeFileChanges`
because they always merge. -/
def isDelayable : LSPMessage → Bool
  | .request _ _ d => d
  | .other d => d
  | _ => false

/-- Embeds `LSPMessage::isRequest()`. -/
def isRequest : LSPMessage → Bool
  | .request _ _ _ => true
  | _ => false

end LSPMessage

/-- The accumulator threaded through `tryPreMerge`: the counts, the
collected `SorbetWorkspaceEdit`s, and the set of filesystem-updated files
(`UnorderedSet<string>`, modelled as a duplicate-free list in insertion
order). -/
structure MergeState where
  counts : SorbetWorkspaceEditCounts
  changes : List SorbetWorkspaceEdit
  updatedFiles : List String
deriving DecidableEq, Repr

/-- The empty accumulator (`SorbetWorkspaceEditCounts(0, 0, 0, 0)` plus
empty `changes` / `updatedFiles`). -/
def emptyMergeState : MergeState := ⟨⟨0, 0, 0, 0⟩, [], []⟩

/-- Set-insert into the updated-files set. -/
def insertFile (s : List String) (f : String) : List String :=
  if f ∈ s then s else s ++ [f]

/-- Embeds `updatedFiles.insert(changes->files.begin(), changes->files.end())`. -/
def insertFiles (s : List String) (fs : List String) : List String :=
  fs.foldl insertFile s

/-- Embeds `tryPreMerge(current, counts, changes, updatedFiles)`
(`main/lsp/protocol.cc`, lines 243-293): merges the five edit-notification
kinds into the accumulator and returns the updated accumulator, `none` for
every other message (the C++ returns `false` and leaves the arguments
unchanged). -/
def tryPreMerge (current : LSPMessage) (st : MergeState) : Option MergeState :=
  match current with
  | .didOpen f =>
    Option.some { st with
      counts := { st.counts with textDocumentDidOpen := st.counts.textDocumentDidOpen + 1 }
      changes := st.changes ++ [.editorOpen f] }
  | .didChange f =>
    Option.some { st with
      counts := { st.counts with textDocumentDidChange := st.counts.textDocumentDidChange + 1 }
      changes := st.changes ++ [.editorChange f] }
  | .didClose f =>
    Option.some { st with
      counts := { st.counts with textDocumentDidClose := st.counts.textDocumentDidClose + 1 }
      changes := st.changes ++ [.editorClose f] }
  | .watchmanFileChange fs =>
    Option.some { st with
      counts := { st.counts with
        sorbetWatchmanFileChange := st.counts.sorbetWatchmanFileChange + 1 }
      updatedFiles := insertFiles st.updatedFiles fs }
  | .workspaceEdit cts chs =>
    Option.some
      (chs.foldl
        (fun acc ch =>
          match ch with
          | .fileSystem fs => { acc with updatedFiles := insertFiles acc.updatedFiles fs }
          | e => { acc with changes := acc.changes ++ [e] })
        { st with
          counts :=
            ⟨st.counts.textDocumentDidOpen + cts.textDocumentDidOpen,
             st.counts.textDocumentDidChange + cts.textDocumentDidChange,
             st.counts.textDocumentDidClose + cts.textDocumentDidClose,
             st.counts.sorbetWatchmanFileChange + cts.sorbetWatchmanFileChange⟩ })
  | _ => Option.none

/-- Embeds `performMerge(updatedFiles, consecutiveWorkspaceEdits, counts)`
(`main/lsp/protocol.cc`, lines 296-313): appends one `FileSystem` edit for
the collected updated files, then builds the merged `SorbetWorkspaceEdit`
notification; `none` ("no merge", a null pointer in the C++) when there is
nothing to merge. -/
def performMerge (st : MergeState) : Option LSPMessage :=
  let edits :=
    st.changes ++ (if st.updatedFiles.isEmpty then [] else [.fileSystem st.updatedFiles])
  if edits.isEmpty then Option.none
  else Option.some (.workspaceEdit st.counts edits)

/-- The result of `mergeFileChanges`' inner loop (lines 336-356): the final
accumulator, the delayable non-edit messages skipped over (in order), the
untouched remainder of the queue, and `requestsMergedCounter`'s increment
(the number of messages erased by the inner loop). -/
structure RunResult where
  state : MergeState
  kept : List LSPMessage
  rest : List LSPMessage
  merged : Nat
deriving Repr

/-- The inner loop of `mergeFileChanges`: starting from the accumulator of
the run's first edit, keep merging edits and skipping delayable non-edits
until a non-delayable non-edit (or the queue's end) stops the run. -/
def mergeRun : MergeState → List LSPMessage → RunResult
  | st, [] => ⟨st, [], [], 0⟩
  | st, m :: q =>
    match tryPreMerge m st with
    | Option.some st' =>
      let r := mergeRun st' q
      ⟨r.state, r.kept, r.rest, r.merged + 1⟩
    | Option.none =>
      if m.isDelayable then
        let r := mergeRun st q
        ⟨r.state, m :: r.kept, r.rest, r.merged⟩
      else ⟨st, [], m :: q, 0⟩

theorem mergeRun_rest_length (st : MergeState) (q : List LSPMessage) :
    (mergeRun st q).rest.length ≤ q.length := by
  induction q generalizing st with
  | nil => simp [mergeRun]
  | cons m q IH =>
    rw [mergeRun]
    cases tryPreMerge m st with
    | some st' => simpa using Nat.le_succ_of_le (IH st')
    | none =>
      by_cases hd : m.isDelayable
      · simpa [hd] using Nat.le_succ_of_le (IH st)
      · simp [hd]

/-- Embeds `mergeFileChanges(pendingRequests)` (`main/lsp/protocol.cc`, lines
323-370), as a function on the queue: each maximal run of consecutive
edit messages (separated at most by delayable non-edits) is replaced, at
the position of the run's first edit, by the single merged message; the
skipped delayable messages stay behind it in order, and the scan resumes
after the run. When `performMerge` yields no message the C++ dereferences
a null pointer; that case is unreachable for well-formed queues (see
`LSPMessage.wf`) and is modelled by dropping the message. -/
def mergeFileChanges : List LSPMessage → List LSPMessage
  | [] => []
  | m :: q =>
    match tryPreMerge m emptyMergeState with
    | Option.some st =>
      let r := mergeRun st q
      (performMerge r.state).toList ++ r.kept ++ mergeFileChanges r.rest
    | Option.none => m :: mergeFileChanges q
termination_by l => l.length
decreasing_by
  · exact Nat.lt_succ_of_le (mergeRun_rest_length _ _)
  · exact Nat.lt_succ_of_le le_rfl

/-- Embeds `requestsMergedCounter`: how many messages `mergeFileChanges` erases
(beyond each run's first message, which is replaced in place). -/
def mergedCount : List LSPMessage → Nat
  | [] => 0
  | m :: q =>
    match tryPreMerge m emptyMergeState with
    | Option.some st =>
      let r := mergeRun st q
      r.merged + mergedCount r.rest
    | Option.none => mergedCount q
termination_by l => l.length
decreasing_by
  · exact Nat.lt_succ_of_le (mergeRun_rest_length _ _)
  · exact Nat.lt_succ_of_le le_rfl

/-- Embeds `cancelRequest(pendingRequests, cancelParams)` (`main/lsp/protocol.cc`,
lines 372-385): mark the first queued request whose id matches as canceled
and stop; leave everything else untouched. -/
def cancelRequest : List LSPMessage → Nat → List LSPMessage
  | [], _ => []
  | m :: q, cid =>
    match m with
    | .request rid c d =>
      if rid = cid then .request rid true d :: q
      else .request rid c d :: cancelRequest q cid
    | _ => m :: cancelRequest q cid

/-- Embeds `LSPLoop::QueueState` (`main/lsp/LSPLoop.h`): the mutex-guarded queue
state shared between the reader and coordinator threads (the
`requestCounter` and thread-local counters are metadata the loop claims do
not concern). -/
structure QueueState where
  pendingRequests : List LSPMessage
  terminate : Bool
  paused : Bool
  errorCode : Int
deriving Repr

/-- The condition the coordinator waits on (`mtx.Await`, lines 185-190):
`terminate || (!paused && !pendingRequests.empty())`. -/
def queueCond (s : QueueState) : Bool :=
  s.terminate || (!s.paused && !s.pendingRequests.isEmpty)

/-- What one iteration of the coordinator loop does next. -/
inductive LoopAction where
  | waitForWork
  | assertionFailure
  | earlyReturnWithCode (code : Int)
  | shutdown
  | processMessage (msg : LSPMessage) (rest : List LSPMessage)
deriving DecidableEq, Repr

/-- One iteration of the coordinator's main loop (`LSPLoop::runLSP`,
`main/lsp/protocol.cc`, lines 179-204): block while the queue condition is
false; `ENFORCE(!paused)`; on `terminate` with a nonzero error code throw
`EarlyReturnWithCode`; on `terminate` with an empty queue stop; otherwise
pop the front message and process it. -/
def loopStep (s : QueueState) : LoopAction :=
  if queueCond s = false then .waitForWork
  else if s.paused then .assertionFailure
  else if s.terminate ∧ s.errorCode ≠ 0 then .earlyReturnWithCode s.errorCode
  else if s.terminate ∧ s.pendingRequests.isEmpty then .shutdown
  else
    match s.pendingRequests with
    | m :: rest => .processMessage m rest
    | [] => .assertionFailure

end Sorbet
namespace Sorbet

/-- The five mergeable edit-message kinds (those `tryPreMerge` accepts). -/
def isEdit : LSPMessage → Bool
  | .request _ _ _ => false
  | .other _ => false
  | _ => true

/-- All-zero edit counts. -/
def zeroCounts : SorbetWorkspaceEditCounts := ⟨0, 0, 0, 0⟩

/-- Pointwise addition of edit counts. -/
def addCounts (a b : SorbetWorkspaceEditCounts) : SorbetWorkspaceEditCounts :=
  ⟨a.textDocumentDidOpen + b.textDocumentDidOpen,
   a.textDocumentDidChange + b.textDocumentDidChange,
   a.textDocumentDidClose + b.textDocumentDidClose,
   a.sorbetWatchmanFileChange + b.sorbetWatchmanFileChange⟩

/-- The per-edit-kind contribution of one message. -/
def msgCounts : LSPMessage → SorbetWorkspaceEditCounts
  | .didOpen _ => ⟨1, 0, 0, 0⟩
  | .didChange _ => ⟨0, 1, 0, 0⟩
  | .didClose _ => ⟨0, 0, 1, 0⟩
  | .watchmanFileChange _ => ⟨0, 0, 0, 1⟩
  | .workspaceEdit cts _ => cts
  | _ => zeroCounts

/-- The per-edit-kind totals of a queue. -/
def sumCounts (l : List LSPMessage) : SorbetWorkspaceEditCounts :=
  l.foldr (fun m acc => addCounts (msgCounts m) acc) zeroCounts

theorem addCounts_zero (a : SorbetWorkspaceEditCounts) : addCounts a zeroCounts = a := by
  cases a; simp [addCounts, zeroCounts]

theorem zero_addCounts (a : SorbetWorkspaceEditCounts) : addCounts zeroCounts a = a := by
  cases a; simp [addCounts, zeroCounts]

theorem addCounts_assoc (a b c : SorbetWorkspaceEditCounts) :
    addCounts (addCounts a b) c = addCounts a (addCounts b c) := by
  cases a; cases b; cases c; simp [addCounts]; omega

theorem addCounts_comm (a b : SorbetWorkspaceEditCounts) :
    addCounts a b = addCounts b a := by
  cases a; cases b; simp [addCounts]; omega

theorem sumCounts_cons (m : LSPMessage) (l : List LSPMessage) :
    sumCounts (m :: l) = addCounts (msgCounts m) (sumCounts l) := rfl

theorem sumCounts_append (l1 l2 : List LSPMessage) :
    sumCounts (l1 ++ l2) = addCounts (sumCounts l1) (sumCounts l2) := by
  induction l1 with
  | nil => simp [sumCounts, zero_addCounts]
  | cons m l1 IH => simp [List.cons_append, sumCounts_cons, IH, addCounts_assoc]

theorem tryPreMerge_isSome (m : LSPMessage) (st : MergeState) :
    (tryPreMerge m st).isSome = isEdit m := by
  cases m <;> rfl

theorem tryPreMerge_none_of_nonEdit {m : LSPMessage} (hm : isEdit m = false)
    (st : MergeState) : tryPreMerge m st = Option.none := by
  have := tryPreMerge_isSome m st
  rw [hm] at this
  exact Option.not_isSome_iff_eq_none.mp (by simp [this])

theorem msgCounts_nonEdit {m : LSPMessage} (hm : isEdit m = false) :
    msgCounts m = zeroCounts := by
  cases m <;> first | rfl | simp [isEdit] at hm

/-- The `workspaceEdit` fold inside `tryPreMerge` never modifies counts. -/
theorem foldChanges_counts (chs : List SorbetWorkspaceEdit) (acc : MergeState) :
    (chs.foldl
      (fun acc ch =>
        match ch with
        | .fileSystem fs => { acc with updatedFiles := insertFiles acc.updatedFiles fs }
        | e => { acc with changes := acc.changes ++ [e] })
      acc).counts = acc.counts := by
  induction chs generalizing acc with
  | nil => rfl
  | cons ch chs IH => cases ch <;> simp [List.foldl_cons, IH]

theorem tryPreMerge_counts {m : LSPMessage} {st st' : MergeState}
    (hm : tryPreMerge m st = Option.some st') :
    st'.counts = addCounts st.counts (msgCounts m) := by
  cases m with
  | didOpen f =>
    cases hm
    cases st.counts; simp [addCounts, msgCounts]
  | didChange f =>
    cases hm
    cases st.counts; simp [addCounts, msgCounts]
  | didClose f =>
    cases hm
    cases st.counts; simp [addCounts, msgCounts]
  | watchmanFileChange fs =>
    cases hm
    cases st.counts; simp [addCounts, msgCounts]
  | workspaceEdit cts chs =>
    cases hm
    rw [foldChanges_counts]
    cases st.counts; simp [addCounts, msgCounts]
  | request rid c d => simp [tryPreMerge] at hm
  | other d => simp [tryPreMerge] at hm

end Sorbet
namespace Sorbet

/-- A merge accumulator that will produce a message: it holds at least one
change or one updated file. -/
def stNonempty (st : MergeState) : Prop :=
  st.changes ≠ [] ∨ st.updatedFiles ≠ []

theorem insertFile_ne_nil (s : List String) (f : String) : insertFile s f ≠ [] := by
  unfold insertFile
  split_ifs with hf
  · intro hc; subst hc; simp at hf
  · simp

theorem insertFiles_ne_nil {s : List String} {fs : List String}
    (hs : s ≠ [] ∨ fs ≠ []) : insertFiles s fs ≠ [] := by
  induction fs generalizing s with
  | nil =>
    rcases hs with hs | hs
    · exact hs
    · exact absurd rfl hs
  | cons f fs IH =>
    unfold insertFiles at *
    rw [List.foldl_cons]
    exact IH (Or.inl (insertFile_ne_nil s f))

/-- Embeds `LSPMessage.wf`: queue well-formedness. A watchman notification carries
at least one file, and a merged workspace edit is never empty (as
`performMerge` guarantees for the messages it builds). -/
def LSPMessage.wf : LSPMessage → Prop
  | .watchmanFileChange fs => fs ≠ []
  | .workspaceEdit _ chs =>
    chs ≠ [] ∧ ∀ ch ∈ chs, ∀ fs, ch = SorbetWorkspaceEdit.fileSystem fs → fs ≠ []
  | _ => True

theorem foldChanges_nonempty (chs : List SorbetWorkspaceEdit) (acc : MergeState)
    (hacc : stNonempty acc) :
    stNonempty
      (chs.foldl
        (fun acc ch =>
          match ch with
          | .fileSystem fs => { acc with updatedFiles := insertFiles acc.updatedFiles fs }
          | e => { acc with changes := acc.changes ++ [e] })
        acc) := by
  induction chs generalizing acc with
  | nil => exact hacc
  | cons ch chs IH =>
    rw [List.foldl_cons]
    apply IH
    cases ch with
    | fileSystem fs =>
      rcases hacc with hc | hu
      · exact Or.inl hc
      · exact Or.inr (insertFiles_ne_nil (Or.inl hu))
    | editorOpen f => exact Or.inl (by simp)
    | editorChange f => exact Or.inl (by simp)
    | editorClose f => exact Or.inl (by simp)

/-- Merging any message into a nonempty accumulator keeps it nonempty. -/
theorem tryPreMerge_nonempty_mono {m : LSPMessage} {st st' : MergeState}
    (hst : stNonempty st) (hm : tryPreMerge m st = Option.some st') : stNonempty st' := by
  cases m with
  | didOpen f => cases hm; exact Or.inl (by simp)
  | didChange f => cases hm; exact Or.inl (by simp)
  | didClose f => cases hm; exact Or.inl (by simp)
  | watchmanFileChange fs =>
    cases hm
    rcases hst with hc | hu
    · exact Or.inl hc
    · exact Or.inr (insertFiles_ne_nil (Or.inl hu))
  | workspaceEdit cts chs =>
    cases hm
    apply foldChanges_nonempty
    exact hst
  | request rid c d => simp [tryPreMerge] at hm
  | other d => simp [tryPreMerge] at hm

/-- Merging a well-formed edit message makes the accumulator nonempty. -/
theorem tryPreMerge_nonempty {m : LSPMessage} {st st' : MergeState}
    (hwf : m.wf) (hm : tryPreMerge m st = Option.some st') : stNonempty st' := by
  cases m with
  | didOpen f => cases hm; exact Or.inl (by simp)
  | didChange f => cases hm; exact Or.inl (by simp)
  | didClose f => cases hm; exact Or.inl (by simp)
  | watchmanFileChange fs =>
    cases hm
    exact Or.inr (insertFiles_ne_nil (Or.inr hwf))
  | workspaceEdit cts chs =>
    cases hm
    rcases hwf with ⟨hne, hfs⟩
    cases chs with
    | nil => exact absurd rfl hne
    | cons ch chs =>
      rw [List.foldl_cons]
      apply foldChanges_nonempty
      cases ch with
      | fileSystem fs =>
        exact Or.inr (insertFiles_ne_nil
          (Or.inr (hfs _ (List.mem_cons_self _ _) fs rfl)))
      | editorOpen f => exact Or.inl (by simp)
      | editorChange f => exact Or.inl (by simp)
      | editorClose f => exact Or.inl (by simp)
  | request rid c d => simp [tryPreMerge] at hm
  | other d => simp [tryPreMerge] at hm

theorem performMerge_of_nonempty {st : MergeState} (hst : stNonempty st) :
    performMerge st =
      Option.some (.workspaceEdit st.counts
        (st.changes ++
          (if st.updatedFiles.isEmpty then [] else [.fileSystem st.updatedFiles]))) := by
  unfold performMerge
  rw [if_neg]
  intro hc
  rw [List.isEmpty_iff] at hc
  rcases hst with hc' | hu
  · rcases List.append_eq_nil.mp hc with ⟨h1, _⟩
    exact hc' h1
  · rcases List.append_eq_nil.mp hc with ⟨_, h2⟩
    rw [if_neg (by simpa using hu)] at h2
    simp at h2

end Sorbet
namespace Sorbet

theorem mergeRun_length (st : MergeState) (q : List LSPMessage) :
    q.length =
      (mergeRun st q).merged + (mergeRun st q).kept.length + (mergeRun st q).rest.length := by
  induction q generalizing st with
  | nil => simp [mergeRun]
  | cons m q IH =>
    rw [mergeRun]
    cases hm : tryPreMerge m st with
    | some st' => simp only [List.length_cons, IH st']; omega
    | none =>
      by_cases hd : m.isDelayable
      · simp only [hd, if_true, List.length_cons, IH st]; omega
      · simp [hd]

theorem mergeRun_state_nonempty {st : MergeState} (q : List LSPMessage)
    (hst : stNonempty st) : stNonempty (mergeRun st q).state := by
  induction q generalizing st with
  | nil => exact hst
  | cons m q IH =>
    rw [mergeRun]
    cases hm : tryPreMerge m st with
    | some st' => exact IH (tryPreMerge_nonempty_mono hst hm)
    | none =>
      by_cases hd : m.isDelayable
      · simp only [hd, if_true]; exact IH hst
      · simpa [hd] using hst

theorem mergeRun_kept_nonEdit (st : MergeState) (q : List LSPMessage) :
    ∀ m ∈ (mergeRun st q).kept, isEdit m = false := by
  induction q generalizing st with
  | nil => simp [mergeRun]
  | cons m q IH =>
    rw [mergeRun]
    cases hm : tryPreMerge m st with
    | some st' => exact IH st'
    | none =>
      by_cases hd : m.isDelayable
      · simp only [hd, if_true]
        intro x hx
        rcases List.mem_cons.mp hx with rfl | hx'
        · have := tryPreMerge_isSome x st
          rw [hm] at this
          simpa using this.symm
        · exact IH st x hx'
      · simp [hd]

theorem mergeRun_kept_delayable (st : MergeState) (q : List LSPMessage) :
    ∀ m ∈ (mergeRun st q).kept, m.isDelayable = true := by
  induction q generalizing st with
  | nil => simp [mergeRun]
  | cons m q IH =>
    rw [mergeRun]
    cases hm : tryPreMerge m st with
    | some st' => exact IH st'
    | none =>
      by_cases hd : m.isDelayable
      · simp only [hd, if_true]
        intro x hx
        rcases List.mem_cons.mp hx with rfl | hx'
        · exact hd
        · exact IH st x hx'
      · simp [hd]

theorem mergeRun_rest_subset (st : MergeState) (q : List LSPMessage) :
    ∀ x ∈ (mergeRun st q).rest, x ∈ q := by
  induction q generalizing st with
  | nil => simp [mergeRun]
  | cons m q IH =>
    rw [mergeRun]
    cases hm : tryPreMerge m st with
    | some st' => intro x hx; exact List.mem_cons_of_mem m (IH st' x hx)
    | none =>
      by_cases hd : m.isDelayable
      · simp only [hd, if_true]
        intro x hx
        exact List.mem_cons_of_mem m (IH st x hx)
      · simp [hd]

theorem mergeRun_filter (st : MergeState) (q : List LSPMessage) :
    q.filter (fun m => !(isEdit m)) =
      (mergeRun st q).kept ++ (mergeRun st q).rest.filter (fun m => !(isEdit m)) := by
  induction q generalizing st with
  | nil => simp [mergeRun]
  | cons m q IH =>
    rw [mergeRun]
    cases hm : tryPreMerge m st with
    | some st' =>
      have hedit : isEdit m = true := by
        have := tryPreMerge_isSome m st
        rw [hm] at this
        simpa using this.symm
      simp only [List.filter_cons, hedit]
      simpa using IH st'
    | none =>
      have hedit : isEdit m = false := by
        have := tryPreMerge_isSome m st
        rw [hm] at this
        simpa using this.symm
      by_cases hd : m.isDelayable
      · simp only [hd, if_true, List.filter_cons, hedit]
        simpa using congrArg (List.cons m) (IH st)
      · simp [hd]

theorem mergeRun_counts (st : MergeState) (q : List LSPMessage) :
    addCounts (mergeRun st q).state.counts (sumCounts (mergeRun st q).rest) =
      addCounts st.counts (sumCounts q) := by
  induction q generalizing st with
  | nil => simp [mergeRun]
  | cons m q IH =>
    rw [mergeRun]
    cases hm : tryPreMerge m st with
    | some st' =>
      have h1 := IH st'
      rw [tryPreMerge_counts hm] at h1
      rw [h1, sumCounts_cons, addCounts_assoc]
    | none =>
      have hedit : isEdit m = false := by
        have := tryPreMerge_isSome m st
        rw [hm] at this
        simpa using this.symm
      by_cases hd : m.isDelayable
      · simp only [hd, if_true, IH st, sumCounts_cons, msgCounts_nonEdit hedit,
          zero_addCounts]
      · simp [hd]

theorem sumCounts_nonEdit {l : List LSPMessage} (hl : ∀ m ∈ l, isEdit m = false) :
    sumCounts l = zeroCounts := by
  induction l with
  | nil => rfl
  | cons m l IH =>
    rw [sumCounts_cons, msgCounts_nonEdit (hl m (List.mem_cons_self m l)), zero_addCounts]
    exact IH fun x hx => hl x (List.mem_cons_of_mem m hx)

end Sorbet
namespace Sorbet

theorem performMerge_shape {st : MergeState} {msg : LSPMessage}
    (hp : performMerge st = Option.some msg) :
    ∃ chs, msg = LSPMessage.workspaceEdit st.counts chs := by
  unfold performMerge at hp
  dsimp only at hp
  split at hp
  all_goals split at hp
  all_goals
    first
    | exact Option.noConfusion hp
    | (cases hp; exact ⟨_, rfl⟩)

theorem mergeFileChanges_cons_edit {m : LSPMessage} {st' : MergeState}
    (hsome : tryPreMerge m emptyMergeState = Option.some st') (q : List LSPMessage) :
    mergeFileChanges (m :: q) =
      (performMerge (mergeRun st' q).state).toList ++ (mergeRun st' q).kept ++
        mergeFileChanges (mergeRun st' q).rest := by
  rw [mergeFileChanges]
  simp only [hsome]

theorem mergeFileChanges_cons_nonEdit {m : LSPMessage}
    (hnone : tryPreMerge m emptyMergeState = Option.none) (q : List LSPMessage) :
    mergeFileChanges (m :: q) = m :: mergeFileChanges q := by
  rw [mergeFileChanges]
  simp only [hnone]

theorem mergedCount_cons_edit {m : LSPMessage} {st' : MergeState}
    (hsome : tryPreMerge m emptyMergeState = Option.some st') (q : List LSPMessage) :
    mergedCount (m :: q) = (mergeRun st' q).merged + mergedCount (mergeRun st' q).rest := by
  rw [mergedCount]
  simp only [hsome]

theorem mergedCount_cons_nonEdit {m : LSPMessage}
    (hnone : tryPreMerge m emptyMergeState = Option.none) (q : List LSPMessage) :
    mergedCount (m :: q) = mergedCount q := by
  rw [mergedCount]
  simp only [hnone]

theorem mergeFileChanges_length (q : List LSPMessage) (hwf : ∀ m ∈ q, m.wf) :
    (mergeFileChanges q).length + mergedCount q = q.length := by
  induction q using mergeFileChanges.induct with
  | case1 => simp [mergeFileChanges, mergedCount]
  | case2 m q st' hsome r IH =>
    have hwfm : m.wf := hwf m (List.mem_cons_self m q)
    have hne : stNonempty (mergeRun st' q).state :=
      mergeRun_state_nonempty q (tryPreMerge_nonempty hwfm hsome)
    rw [mergeFileChanges_cons_edit hsome, mergedCount_cons_edit hsome,
      performMerge_of_nonempty hne]
    have hr := mergeRun_length st' q
    have hIH := IH fun x hx => hwf x (List.mem_cons_of_mem m (mergeRun_rest_subset st' q x hx))
    have hrr : r = mergeRun st' q := rfl
    rw [hrr] at hIH
    simp only [Option.toList_some, List.length_append, List.length_cons]
    simp at hIH ⊢
    omega
  | case3 m q hnone IH =>
    rw [mergeFileChanges_cons_nonEdit hnone, mergedCount_cons_nonEdit hnone]
    have hIH := IH fun x hx => hwf x (List.mem_cons_of_mem m hx)
    simp only [List.length_cons]
    omega

theorem mergeFileChanges_counts (q : List LSPMessage) (hwf : ∀ m ∈ q, m.wf) :
    sumCounts (mergeFileChanges q) = sumCounts q := by
  induction q using mergeFileChanges.induct with
  | case1 => simp [mergeFileChanges]
  | case2 m q st' hsome r IH =>
    have hwfm : m.wf := hwf m (List.mem_cons_self m q)
    have hne : stNonempty (mergeRun st' q).state :=
      mergeRun_state_nonempty q (tryPreMerge_nonempty hwfm hsome)
    rw [mergeFileChanges_cons_edit hsome, performMerge_of_nonempty hne]
    have hIH := IH fun x hx => hwf x (List.mem_cons_of_mem m (mergeRun_rest_subset st' q x hx))
    have hrr : r = mergeRun st' q := rfl
    rw [hrr] at hIH
    have hkept : sumCounts (mergeRun st' q).kept = zeroCounts :=
      sumCounts_nonEdit (mergeRun_kept_nonEdit st' q)
    have hcounts := mergeRun_counts st' q
    have hst' : st'.counts = msgCounts m := by
      rw [tryPreMerge_counts hsome]
      show addCounts zeroCounts (msgCounts m) = msgCounts m
      exact zero_addCounts _
    rw [hst'] at hcounts
    simp only [Option.toList_some, List.cons_append, List.nil_append, sumCounts_cons,
      sumCounts_append, hkept, zero_addCounts, hIH, msgCounts]
    exact hcounts
  | case3 m q hnone IH =>
    rw [mergeFileChanges_cons_nonEdit hnone]
    have hIH := IH fun x hx => hwf x (List.mem_cons_of_mem m hx)
    rw [sumCounts_cons, sumCounts_cons, hIH]

theorem mergeFileChanges_filter (q : List LSPMessage) :
    (mergeFileChanges q).filter (fun m => !(isEdit m)) =
      q.filter (fun m => !(isEdit m)) := by
  induction q using mergeFileChanges.induct with
  | case1 => simp [mergeFileChanges]
  | case2 m q st' hsome r IH =>
    have hedit : isEdit m = true := by
      have := tryPreMerge_isSome m emptyMergeState
      rw [hsome] at this
      simpa using this.symm
    rw [mergeFileChanges_cons_edit hsome]
    rw [List.filter_append, List.filter_append]
    have h1 : ((performMerge (mergeRun st' q).state).toList).filter
        (fun m => !(isEdit m)) = [] := by
      cases hp : performMerge (mergeRun st' q).state with
      | none => rfl
      | some msg =>
        rcases performMerge_shape hp with ⟨chs, rfl⟩
        rfl
    have h2 : ((mergeRun st' q).kept).filter (fun m => !(isEdit m)) =
        (mergeRun st' q).kept :=
      List.filter_eq_self.mpr fun x hx => by
        simp [mergeRun_kept_nonEdit st' q x hx]
    rw [h1, h2, IH, List.filter_cons, hedit]
    simp only [Bool.not_true, List.nil_append]
    exact (mergeRun_filter st' q).symm
  | case3 m q hnone IH =>
    have hedit : isEdit m = false := by
      have := tryPreMerge_isSome m emptyMergeState
      rw [hnone] at this
      simpa using this.symm
    rw [mergeFileChanges_cons_nonEdit hnone, List.filter_cons, List.filter_cons, hedit, IH]

theorem mergeFileChanges_all_merged (q : List LSPMessage) :
    ∀ x ∈ mergeFileChanges q, isEdit x = true →
      ∃ cts chs, x = LSPMessage.workspaceEdit cts chs := by
  induction q using mergeFileChanges.induct with
  | case1 => simp [mergeFileChanges]
  | case2 m q st' hsome r IH =>
    rw [mergeFileChanges_cons_edit hsome]
    intro x hx hxe
    rcases List.mem_append.mp hx with hx1 | hx2
    · rcases List.mem_append.mp hx1 with hx3 | hx4
      · cases hp : performMerge (mergeRun st' q).state with
        | none => rw [hp] at hx3; simp at hx3
        | some msg =>
          rw [hp] at hx3
          simp only [Option.toList_some, List.mem_singleton] at hx3
          subst hx3
          rcases performMerge_shape hp with ⟨chs, rfl⟩
          exact ⟨_, _, rfl⟩
      · rw [mergeRun_kept_nonEdit st' q x hx4] at hxe
        cases hxe
    · exact IH x hx2 hxe
  | case3 m q hnone IH =>
    rw [mergeFileChanges_cons_nonEdit hnone]
    intro x hx hxe
    rcases List.mem_cons.mp hx with rfl | hx'
    · have := tryPreMerge_isSome x emptyMergeState
      rw [hnone] at this
      rw [hxe] at this
      simp at this
    · exact IH x hx' hxe

theorem mergeFileChanges_skipNonEdits (pre q : List LSPMessage)
    (hpre : ∀ x ∈ pre, isEdit x = false) :
    mergeFileChanges (pre ++ q) = pre ++ mergeFileChanges q := by
  induction pre with
  | nil => simp
  | cons x pre IH =>
    have hx : isEdit x = false := hpre x (List.mem_cons_self x pre)
    rw [List.cons_append, mergeFileChanges_cons_nonEdit (tryPreMerge_none_of_nonEdit hx _),
      IH fun y hy => hpre y (List.mem_cons_of_mem x hy), List.cons_append]

end Sorbet
namespace Sorbet

/-! ## Workspace symbols (`main/lsp/requests/workspace_symbols.cc`) -/

/-- Embeds `SymbolMatcher::MAX_RESULTS`. -/
def MAX_RESULTS : Nat := 50

/-- Embeds `SymbolMatcher::MAX_LOCATIONS_PER_SYMBOL`. -/
def MAX_LOCATIONS_PER_SYMBOL : Nat := 10

/-- Embeds `isNamespaceSeparator` (ASCII). -/
def isNamespaceSeparator (ch : Char) : Bool := ch == ':' || ch == '.'

/-- C `islower` for ASCII. -/
def isLowerCh (c : Char) : Bool := decide ('a' ≤ c) && decide (c ≤ 'z')

/-- C `isupper` for ASCII. -/
def isUpperCh (c : Char) : Bool := decide ('A' ≤ c) && decide (c ≤ 'Z')

/-- C `isalnum` for ASCII. -/
def isAlnumCh (c : Char) : Bool :=
  isLowerCh c || isUpperCh c || (decide ('0' ≤ c) && decide (c ≤ '9'))

/-- C `tolower` for ASCII. -/
def toLowerCh (c : Char) : Char :=
  if isUpperCh c then Char.ofNat (c.toNat + 32) else c

/-- The state coming out of the inner `while (symbolIter != symbolEnd)`
loop of `partialMatchSymbol`: the remaining symbol characters, the
persistent `previousSymbolCh` / `symbolCh`, and the score increment when
the current query character matched (`none` when the symbol was exhausted
without a break). -/
structure InnerOut where
  sym : List Char
  prev : Char
  cur : Char
  inc : Option Nat
deriving Repr

/-- The inner loop of `partialMatchSymbol` for one query character `qc`:
walk the symbol looking for a match, scoring 0/1 for a first-character
match, `100 + consumed` on a word boundary, `200 + consumed` mid-word when
not `prefixOnly` (mid-word matches keep scanning in prefix-only mode). -/
def msInner (prefixOnly : Bool) (qc : Char) : List Char → Char → Char → Nat → InnerOut
  | [], prev, cur, _ => ⟨[], prev, cur, Option.none⟩
  | sc :: rest, _, cur, consumed =>
    let prev' := cur
    let cur' := sc
    let consumed' := consumed + 1
    if qc == cur' || (isLowerCh qc && (toLowerCh qc == toLowerCh cur')) then
      if consumed' = 1 then
        ⟨rest, prev', cur', Option.some (if qc == cur' then 0 else 1)⟩
      else if !(isAlnumCh prev') || isUpperCh cur' then
        ⟨rest, prev', cur', Option.some (100 + consumed')⟩
      else if !prefixOnly then
        ⟨rest, prev', cur', Option.some (200 + consumed')⟩
      else
        msInner prefixOnly qc rest prev' cur' consumed'
    else
      msInner prefixOnly qc rest prev' cur' consumed'

/-- The outer `while (queryIter != queryEnd)` loop of `partialMatchSymbol`:
`qpos` is the index (within the query slice) of the next query character,
`res` the recorded match progress (`result.second - queryBegin`, `0` when
nothing matched yet). -/
def msOuter (prefixOnly : Bool) : List Char → List Char → Char → Char → Nat → Nat → Nat →
    Nat × Nat
  | [], _, _, _, _, score, res => (score, res)
  | qc :: qs, sym, prev, cur, qpos, score, res =>
    let r := msInner prefixOnly qc sym prev cur 0
    match r.inc with
    | Option.some inc =>
      msOuter prefixOnly qs r.sym r.prev r.cur (qpos + 1) (score + inc) (qpos + 1)
    | Option.none => msOuter prefixOnly qs r.sym r.prev r.cur (qpos + 1) score res

/-- Embeds `partialMatchSymbol(symbol, queryBegin, queryEnd, prefixOnly)`
(`main/lsp/requests/workspace_symbols.cc`, lines 68-113): returns the pair
(rank, query progress), the progress counted in characters from the start
of the query slice (`0` meaning `queryBegin`). Leading namespace
separators are skipped; a symbol that matched anything is penalized by its
length. -/
def matchSymbol (symbol : List Char) (query : List Char) (prefixOnly : Bool) : Nat × Nat :=
  let k := (query.takeWhile isNamespaceSeparator).length
  let r := msOuter prefixOnly (query.drop k) symbol (Char.ofNat 0) (Char.ofNat 0) k 0 0
  if r.2 ≠ 0 then (r.1 + symbol.length, r.2) else r

/-- The per-symbol fields the workspace-symbols query consults. The two
`nameUniqueOriginal*` flags stand for `name.kind == UNIQUE &&
name.unique.original == <staticInit | blockTemp>`. -/
structure SymbolData where
  owner : Nat
  nameKindUnique : Bool
  shortName : String
  locs : List Loc
  isClass : Bool
  attachedClassExists : Bool
  superClassIsStubModule : Bool
  nameIsStaticInit : Bool
  nameUniqueOriginalStaticInit : Bool
  nameUniqueOriginalBlockTemp : Bool
deriving Repr

/-- Placeholder symbol data for out-of-range lookups. -/
def noSymbolData : SymbolData := ⟨0, false, "", [], false, false, false, false, false, false⟩

/-- The symbol table slice that `SymbolMatcher` reads (`gs.symbolsUsed()`
symbols; index 0 is the root symbol). -/
structure SymGlobalState where
  symbols : List SymbolData
deriving Repr

/-- Embeds `hideSymbol(gs, sym)` (`main/lsp/lsp_helpers.cc`, lines 141-167):
non-existent symbols and the root, singleton classes, stubs, and
static-init / block-temporary internals are hidden. -/
def hideSymbol (gs : SymGlobalState) (idx : Nat) : Bool :=
  match gs.symbols.get? idx with
  | Option.none => true
  | Option.some d =>
    if idx = 0 then true
    else if d.isClass && d.attachedClassExists then true
    else if d.isClass && d.superClassIsStubModule then true
    else if d.nameIsStaticInit then true
    else if d.nameUniqueOriginalStaticInit then true
    else if d.nameUniqueOriginalBlockTemp then true
    else false

/-- Modelled from the spec: `Range::fromLoc` (generated LSP message code,
absent from the provided sources) converts a location to an editor range,
failing exactly on the no-location sentinel (`SENTINEL` marks "no
location", spec §3). -/
def rangeFromLoc (l : Loc) : Option Loc :=
  if l.exists' then Option.some l else Option.none

/-- Embeds `LSPConfiguration::loc2Location` (`main/lsp/protocol.cc` companion
file): builds a `Location` from `Range::fromLoc`, returning null when the
range is null. The URI payload is irrelevant to the claims and omitted;
the carried `Loc` stands for the location content. -/
def loc2Location (l : Loc) : Option Loc := rangeFromLoc l

/-- Modelled from the spec: `Symbol::loc()` (`core/Symbols.h`, absent from
the provided sources), the most recently recorded location of the symbol
("multi-location for reopened classes", spec §3). -/
def SymbolData.loc (d : SymbolData) : Loc :=
  (d.locs.getLast?).getD (Loc.locNone 0)

/-- One `SymbolInformation` result. `kind` and `containerName` are never
consulted by the claims and are omitted; `symbolIndex` records which
symbol produced the entry (used only to state ordering properties). -/
structure SymbolInformation where
  name : String
  location : Loc
  symbolIndex : Nat
deriving Repr

/-- The loop of `SymbolMatcher::symbolRef2SymbolInformations` over the
symbol's locations: skip locations in nonexistent files, skip null
`loc2Location` results, stop once `limit` entries have been produced
(checked after each push). -/
def s2siLoop (d : SymbolData) (idx : Nat) (limit : Nat) :
    List Loc → List SymbolInformation → List SymbolInformation
  | [], acc => acc
  | loc :: rest, acc =>
    if loc.fileRef = 0 then s2siLoop d idx limit rest acc
    else
      match loc2Location d.loc with
      | Option.none => s2siLoop d idx limit rest acc
      | Option.some l =>
        let acc' := acc ++ [⟨d.shortName, l, idx⟩]
        if limit ≤ acc'.length then acc' else s2siLoop d idx limit rest acc'

/-- Embeds `SymbolMatcher::symbolRef2SymbolInformations(symRef, limit)`
(`main/lsp/requests/workspace_symbols.cc`, lines 38-61). Note that the
source iterates over `sym->locs()` but builds every entry from
`sym->loc()`. -/
def symbolRef2SymbolInformations (gs : SymGlobalState) (idx : Nat) (limit : Nat) :
    List SymbolInformation :=
  match gs.symbols.get? idx with
  | Option.none => []
  | Option.some d =>
    if hideSymbol gs idx then []
    else s2siLoop d idx limit d.locs []

/-- Embeds `ScoreInfo` (`doQuery`): `queryIter` is the match progress as an
absolute offset into the query, `none` standing for the null iterator. -/
structure ScoreInfo where
  symbolIndex : Nat
  score : Nat
  queryIter : Option Nat
deriving Repr, DecidableEq

/-- The first pass of `doQuery` (lines 131-149): prefix-only matching of
each non-unique symbol's short name against the query, resuming from the
owner's recorded progress. -/
def firstPass (gs : SymGlobalState) (qchars : List Char) : List ScoreInfo :=
  gs.symbols.enum.foldl
    (fun scoreInfos p =>
      let i := p.1
      let d := p.2
      if i = 0 then scoreInfos
      else if d.nameKindUnique then scoreInfos
      else
        let ownerInfo := scoreInfos.getD d.owner ⟨0, 0, Option.none⟩
        let degenerate := ownerInfo.symbolIndex = 0 ∨ ownerInfo.queryIter = Option.none
        let ownerScore := if degenerate then 0 else ownerInfo.score
        let ownerIter := if degenerate then 0 else ownerInfo.queryIter.getD 0
        let r := matchSymbol d.shortName.toList (qchars.drop ownerIter) true
        scoreInfos.set i ⟨i, ownerScore + r.1, Option.some (ownerIter + r.2)⟩)
    ((List.range gs.symbols.length).map
      (fun i => if i = 0 then ⟨0, 0, Option.some 0⟩ else ⟨0, 0, Option.none⟩))

/-- The second pass of `doQuery` (lines 153-178): record candidates,
relaxing the prefix-only requirement, as `(symbolIndex, bestScore)`
pairs. -/
def secondPass (gs : SymGlobalState) (scoreInfos : List ScoreInfo) (qchars : List Char) :
    List (Nat × Nat) :=
  let qlen := qchars.length
  scoreInfos.foldl
    (fun candidates si =>
      if si.symbolIndex = 0 then candidates
      else
        let d := (gs.symbols.get? si.symbolIndex).getD noSymbolData
        let ownerInfo := scoreInfos.getD d.owner ⟨0, 0, Option.none⟩
        let best0 : Option Nat :=
          if si.queryIter = Option.some qlen ∧
              ¬(ownerInfo.queryIter = Option.some qlen ∧ ownerInfo.score ≤ si.score)
          then Option.some si.score
          else Option.none
        let r := matchSymbol d.shortName.toList qchars false
        let best1 : Option Nat :=
          if r.2 = qlen ∧ (∀ b, best0 = Option.some b → r.1 < b)
          then Option.some r.1
          else best0
        let best2 : Option Nat :=
          match ownerInfo.queryIter with
          | Option.none => best1
          | Option.some o =>
            if o ≠ 0 ∧ o ≠ qlen then
              let r2 := matchSymbol d.shortName.toList (qchars.drop o) false
              if o + r2.2 = qlen ∧ (∀ b, best1 = Option.some b → r2.1 < b)
              then Option.some (ownerInfo.score + r2.1)
              else best1
            else best1
        match best2 with
        | Option.some b => candidates ++ [(si.symbolIndex, b)]
        | Option.none => candidates)
    []

/-- The final collection loop over one candidate's symbol informations:
push, then break out of the *inner* loop once `limit` is reached. -/
def innerCollect (limit : Nat) :
    List SymbolInformation → List SymbolInformation → List SymbolInformation
  | [], results => results
  | info :: rest, results =>
    let results' := results ++ [info]
    if limit ≤ results'.length then results' else innerCollect limit rest results'

/-- Embeds `SymbolMatcher::doQuery(query_view, limit)`
(`main/lsp/requests/workspace_symbols.cc`, lines 116-190). `fast_sort`
(an unstable sort by ascending score) is modelled with an insertion sort
using the same comparator. The result-collection loop is translated faithfully:
its `break` leaves only the inner location loop, so the outer candidate
loop continues even after `limit` entries have been collected. -/
def doQuery (gs : SymGlobalState) (query : String) (limit : Nat) : List SymbolInformation :=
  let qchars := query.toList
  if qchars.isEmpty then []
  else
    let scoreInfos := firstPass gs qchars
    let candidates := secondPass gs scoreInfos qchars
    let sorted := candidates.insertionSort (fun a b => a.2 ≤ b.2)
    sorted.foldl
      (fun results cand =>
        innerCollect limit (symbolRef2SymbolInformations gs cand.1 MAX_LOCATIONS_PER_SYMBOL)
          results)
      []

end Sorbet
namespace Sorbet

/-! ## Cancellation helpers (`cancelRequest`) -/

/-- The predicate `cancelRequest` scans for: a request whose id equals the
cancellation's id. -/
def LSPMessage.matchesCancel (cid : Nat) : LSPMessage → Bool
  | .request rid _ _ => rid == cid
  | _ => false

/-- Setting the `canceled` flag on a request; every other message is
untouched. -/
def markCanceled : LSPMessage → LSPMessage
  | .request rid _ d => .request rid true d
  | m => m

theorem cancelRequest_spec (q : List LSPMessage) (cid : Nat) :
    (q.findIdx? (LSPMessage.matchesCancel cid) = Option.none → cancelRequest q cid = q) ∧
    (∀ i m, q.findIdx? (LSPMessage.matchesCancel cid) = Option.some i →
      q.get? i = Option.some m → cancelRequest q cid = q.set i (markCanceled m)) := by
  induction q with
  | nil => exact ⟨fun _ => rfl, fun i m h => by simp at h⟩
  | cons m0 q IH =>
    have hcons :
        (m0 :: q).findIdx? (LSPMessage.matchesCancel cid) =
          (if LSPMessage.matchesCancel cid m0 then Option.some 0
           else (q.findIdx? (LSPMessage.matchesCancel cid)).map (· + 1)) := by
      rw [List.findIdx?_cons, List.findIdx?_succ]
    constructor
    · intro hnone
      rw [hcons] at hnone
      by_cases hp : LSPMessage.matchesCancel cid m0 = true
      · rw [if_pos hp] at hnone; cases hnone
      · rw [if_neg hp] at hnone
        have hq : q.findIdx? (LSPMessage.matchesCancel cid) = Option.none :=
          Option.map_eq_none.mp hnone
        have htail := IH.1 hq
        cases m0 with
        | request rid c d =>
          have hrid : ¬ rid = cid := by
            simpa [LSPMessage.matchesCancel] using hp
          show (if rid = cid then _ else LSPMessage.request rid c d :: cancelRequest q cid) = _
          rw [if_neg hrid, htail]
        | didOpen f => show _ :: cancelRequest q cid = _; rw [htail]
        | didChange f => show _ :: cancelRequest q cid = _; rw [htail]
        | didClose f => show _ :: cancelRequest q cid = _; rw [htail]
        | watchmanFileChange fs => show _ :: cancelRequest q cid = _; rw [htail]
        | workspaceEdit cts chs => show _ :: cancelRequest q cid = _; rw [htail]
        | other d => show _ :: cancelRequest q cid = _; rw [htail]
    · intro i m hfind hget
      rw [hcons] at hfind
      by_cases hp : LSPMessage.matchesCancel cid m0 = true
      · rw [if_pos hp] at hfind
        injection hfind with hi
        subst hi
        simp only [List.get?_cons_zero, Option.some.injEq] at hget
        subst hget
        cases m0 with
        | request rid c d =>
          have hrid : rid = cid := by
            simpa [LSPMessage.matchesCancel] using hp
          show (if rid = cid then LSPMessage.request rid true d :: q else _) = _
          rw [if_pos hrid]
          simp [markCanceled]
        | didOpen f => simp [LSPMessage.matchesCancel] at hp
        | didChange f => simp [LSPMessage.matchesCancel] at hp
        | didClose f => simp [LSPMessage.matchesCancel] at hp
        | watchmanFileChange fs => simp [LSPMessage.matchesCancel] at hp
        | workspaceEdit cts chs => simp [LSPMessage.matchesCancel] at hp
        | other d => simp [LSPMessage.matchesCancel] at hp
      · rw [if_neg hp] at hfind
        rcases Option.map_eq_some'.mp hfind with ⟨j, hfq, hij⟩
        subst hij
        simp only [List.get?_cons_succ] at hget
        have hrec := IH.2 j m hfq hget
        cases m0 with
        | request rid c d =>
          have hrid : ¬ rid = cid := by
            simpa [LSPMessage.matchesCancel] using hp
          show (if rid = cid then _ else LSPMessage.request rid c d :: cancelRequest q cid) = _
          rw [if_neg hrid, hrec]
          rfl
        | didOpen f => show _ :: cancelRequest q cid = _; rw [hrec]; rfl
        | didChange f => show _ :: cancelRequest q cid = _; rw [hrec]; rfl
        | didClose f => show _ :: cancelRequest q cid = _; rw [hrec]; rfl
        | watchmanFileChange fs => show _ :: cancelRequest q cid = _; rw [hrec]; rfl
        | workspaceEdit cts chs => show _ :: cancelRequest q cid = _; rw [hrec]; rfl
        | other d => show _ :: cancelRequest q cid = _; rw [hrec]; rfl

end Sorbet
namespace Sorbet

/-! ## Concrete instances used by witnesses and counterexamples -/

/-- A parent global state: two names, one symbol, one file. -/
def gsParentW : GlobalState := ⟨[Name.utf8 "", Name.utf8 "x"], 1, 1⟩

/-- A source state derived from `gsParentW` that grew only its file table. -/
def gsFromW : GlobalState := ⟨[Name.utf8 "", Name.utf8 "x"], 1, 3⟩

/-- A target state derived from `gsParentW` that grew its name table. -/
def gsToW : GlobalState := ⟨[Name.utf8 "", Name.utf8 "x", Name.utf8 "y", Name.utf8 "z"], 1, 1⟩

/-- An existing location in file 1. -/
def exLoc : Loc := ⟨0, 0, 1⟩

/-- A visible symbol named "a" owned by the root, with one location. -/
def exSym : SymbolData := ⟨0, false, "a", [exLoc], false, false, false, false, false, false⟩

/-- A symbol table with sixty identical matching symbols (plus the root). -/
def exGS : SymGlobalState := ⟨noSymbolData :: List.replicate 60 exSym⟩

/-- A small well-formed request queue: one edit run (`didOpen`,
a delayable request, `didChange`) between two non-delayable messages. -/
def exQueue : List LSPMessage :=
  [LSPMessage.other false, LSPMessage.didOpen "a", LSPMessage.request 1 false true,
   LSPMessage.didChange "a", LSPMessage.other false]

/-! ## The claims -/

/-- C1 (amended: for comparable classes, `meet` is the **more**-derived of
the two, not the less-derived — see `spec_c1_counterexample`): for classes
`c`, `d` of a well-formed hierarchy with a common linearization entry,
`join(c, d)` is their nearest common ancestor `lca(c, d)`; `meet(c, d)` is
the more-derived class when one is comparable to the other and `bottom`
otherwise; in particular, for the sibling subclasses `Foo1` (1) and `Foo2`
(2) of `Bar` (0), `join(Foo1, Foo2) = Bar` and
`meet(Foo1, Foo2) = bottom`. -/
theorem spec_c1 (h : Hierarchy) (hw : h.Wf) (c d e : Nat)
    (hl : Types.lca h c d = Option.some e) :
    Types.lub h (.classType c) (.classType d) = .classType e ∧
    (Types.isSubType h (.classType c) (.classType d) = true →
      Types.glb h (.classType c) (.classType d) = .classType c) ∧
    (Types.isSubType h (.classType d) (.classType c) = true →
      Types.glb h (.classType c) (.classType d) = .classType d) ∧
    (Types.isSubType h (.classType c) (.classType d) = false →
      Types.isSubType h (.classType d) (.classType c) = false →
      Types.glb h (.classType c) (.classType d) = .bot) ∧
    Types.lub sibH (.classType 1) (.classType 2) = .classType 0 ∧
    Types.glb sibH (.classType 1) (.classType 2) = .bot := by
  refine ⟨Types.lub_classes h hw hl, fun hab => Types.glb_classes_le h hab,
    fun hba => Types.glb_classes_ge h hw hba, fun h1 h2 =>
      Types.glb_classes_none h (by simp [h1]) (by simp [h2]), ?_, ?_⟩
  · exact Types.lub_classes sibH sibH_wf (by decide)
  · refine Types.glb_classes_none sibH ?_ ?_
    · rw [Types.class_class_eq sibH 1 2 (by decide)]; decide
    · rw [Types.class_class_eq sibH 2 1 (by decide)]; decide

/-- Witness for C1 at the sibling hierarchy (`Foo1 < Bar`, `Foo2 < Bar`):
`lca(Foo1, Foo2) = Bar`. -/
theorem spec_c1_witness :
    Types.lub sibH (.classType 1) (.classType 2) = .classType 0 ∧
    (Types.isSubType sibH (.classType 1) (.classType 2) = true →
      Types.glb sibH (.classType 1) (.classType 2) = .classType 1) ∧
    (Types.isSubType sibH (.classType 2) (.classType 1) = true →
      Types.glb sibH (.classType 1) (.classType 2) = .classType 2) ∧
    (Types.isSubType sibH (.classType 1) (.classType 2) = false →
      Types.isSubType sibH (.classType 2) (.classType 1) = false →
      Types.glb sibH (.classType 1) (.classType 2) = .bot) ∧
    Types.lub sibH (.classType 1) (.classType 2) = .classType 0 ∧
    Types.glb sibH (.classType 1) (.classType 2) = .bot :=
  spec_c1 sibH sibH_wf 1 2 0 (by decide)

/-- Counterexample to C1 as stated: `Foo1` (1) is comparable to `Bar` (0)
— `Foo1 <: Bar` — and their meet is `Foo1`, the more-derived of the two,
not the less-derived class `Bar` the claim names. -/
theorem spec_c1_counterexample :
    Types.isSubType sibH (.classType 1) (.classType 0) = true ∧
    Types.glb sibH (.classType 1) (.classType 0) = .classType 1 ∧
    Types.glb sibH (.classType 1) (.classType 0) ≠ .classType 0 := by
  have h10 : Types.isSubType sibH (.classType 1) (.classType 0) = true := by
    rw [Types.class_class_eq sibH 1 0 (by decide)]; decide
  have hg : Types.glb sibH (.classType 1) (.classType 0) = .classType 1 := by
    unfold Types.glb
    rw [if_neg (by decide), if_pos h10]
  exact ⟨h10, hg, by rw [hg]; decide⟩

/-- C2: for every pair of types, both are subtypes of their join, the meet
is a subtype of both, and join and meet are commutative up to mutual
subtyping (`equiv`). -/
theorem spec_c2 (h : Hierarchy) (hw : h.Wf) (a b : Ty) :
    Types.isSubType h a (Types.lub h a b) = true ∧
    Types.isSubType h b (Types.lub h a b) = true ∧
    Types.isSubType h (Types.glb h a b) a = true ∧
    Types.isSubType h (Types.glb h a b) b = true ∧
    Types.equiv h (Types.lub h a b) (Types.lub h b a) = true ∧
    Types.equiv h (Types.glb h a b) (Types.glb h b a) = true :=
  ⟨(Types.lub_ub h a b).1, (Types.lub_ub h a b).2, (Types.glb_lb h a b).1,
   (Types.glb_lb h a b).2, Types.lub_comm h hw a b, Types.glb_comm h a b⟩

/-- Witness for C2 at the sibling hierarchy with a union and a class. -/
theorem spec_c2_witness :
    Types.isSubType sibH (.orType (.classType 1) (.lit 2 7))
        (Types.lub sibH (.orType (.classType 1) (.lit 2 7)) (.classType 2)) = true ∧
    Types.isSubType sibH (.classType 2)
        (Types.lub sibH (.orType (.classType 1) (.lit 2 7)) (.classType 2)) = true ∧
    Types.isSubType sibH
        (Types.glb sibH (.orType (.classType 1) (.lit 2 7)) (.classType 2))
        (.orType (.classType 1) (.lit 2 7)) = true ∧
    Types.isSubType sibH
        (Types.glb sibH (.orType (.classType 1) (.lit 2 7)) (.classType 2))
        (.classType 2) = true ∧
    Types.equiv sibH
        (Types.lub sibH (.orType (.classType 1) (.lit 2 7)) (.classType 2))
        (Types.lub sibH (.classType 2) (.orType (.classType 1) (.lit 2 7))) = true ∧
    Types.equiv sibH
        (Types.glb sibH (.orType (.classType 1) (.lit 2 7)) (.classType 2))
        (Types.glb sibH (.classType 2) (.orType (.classType 1) (.lit 2 7))) = true :=
  spec_c2 sibH sibH_wf (.orType (.classType 1) (.lit 2 7)) (.classType 2)

/-- C3: `untyped` is simultaneously a subtype and a supertype of every
type (including `top`). -/
theorem spec_c3 (h : Hierarchy) (t : Ty) :
    Types.isSubType h .untyped t = true ∧ Types.isSubType h t .untyped = true :=
  ⟨Types.sub_untyped_left h t, Types.sub_untyped_right h t⟩

end Sorbet
namespace Sorbet

/-- C4: for every substitution built by the constructor whose
`useFastPath()` holds, `substitute` is the identity on every name
reference of the source state. -/
theorem spec_c4 (gsFrom gsTo : GlobalState) (p : Option GlobalState)
    (sub : GlobalSubstitution)
    (_hmk : GlobalSubstitution.mk? gsFrom gsTo p = Option.some sub)
    (hfast : sub.useFastPath = true) (ref : Nat) (_href : ref < gsFrom.namesUsed) :
    sub.substitute ref = ref := by
  unfold GlobalSubstitution.substitute
  unfold GlobalSubstitution.useFastPath at hfast
  rw [if_pos hfast]

/-- Witness for C4: a fast-path substitution built from `gsFromW`,
`gsToW` and parent `gsParentW`. -/
theorem spec_c4_witness :
    GlobalSubstitution.substitute ⟨[], true⟩ 1 = 1 :=
  spec_c4 gsFromW gsToW (Option.some gsParentW) ⟨[], true⟩ (by decide) (by decide)
    1 (by decide)

theorem mkFastPath_eq (gsFrom gsTo : GlobalState) (p : Option GlobalState)
    (sub : GlobalSubstitution)
    (hmk : GlobalSubstitution.mk? gsFrom gsTo p = Option.some sub) :
    sub.fastPath =
      p.elim false
        (fun parent =>
          gsFrom.namesUsed == parent.namesUsed &&
            gsFrom.symbolsUsed == parent.symbolsUsed) := by
  unfold GlobalSubstitution.mk? at hmk
  dsimp only at hmk
  split_ifs at hmk with h1 h2
  all_goals
    first
    | exact Option.noConfusion hmk
    | (injection hmk with hsub; subst hsub; cases p <;> rfl)

/-- C5 (amended: the fast-path discriminator checks only the **source**
state against the parent — equality of `namesUsed` and `symbolsUsed`; the
target state's growth and the file tables are not consulted — see
`spec_c5_counterexample`): a constructed substitution takes the fast path
iff a common parent was supplied and the source state's name and symbol
counts equal the parent's. -/
theorem spec_c5 (gsFrom gsTo : GlobalState) (p : Option GlobalState)
    (sub : GlobalSubstitution)
    (hmk : GlobalSubstitution.mk? gsFrom gsTo p = Option.some sub) :
    sub.useFastPath = true ↔
      ∃ parent, p = Option.some parent ∧ gsFrom.namesUsed = parent.namesUsed ∧
        gsFrom.symbolsUsed = parent.symbolsUsed := by
  have hc := mkFastPath_eq gsFrom gsTo p sub hmk
  unfold GlobalSubstitution.useFastPath
  rw [hc]
  cases p with
  | none => simp [Option.elim]
  | some parent => simp [Option.elim]

/-- Witness for C5 (amended) at the fast-path instance. -/
theorem spec_c5_witness :
    GlobalSubstitution.useFastPath ⟨[], true⟩ = true ↔
      ∃ parent, (Option.some gsParentW : Option GlobalState) = Option.some parent ∧
        gsFromW.namesUsed = parent.namesUsed ∧
        gsFromW.symbolsUsed = parent.symbolsUsed :=
  spec_c5 gsFromW gsToW (Option.some gsParentW) ⟨[], true⟩ (by decide)

/-- Counterexample to C5 as stated: the target `gsToW` grew its name
table past the parent (4 names against 2) and the source `gsFromW` grew
its file table (3 files against 1), yet the constructor still takes the
fast path — target growth and file growth do not force the slow path. -/
theorem spec_c5_counterexample :
    (GlobalSubstitution.mk? gsFromW gsToW (Option.some gsParentW)).map
        GlobalSubstitution.useFastPath = Option.some true ∧
    gsToW.namesUsed ≠ gsParentW.namesUsed ∧
    gsFromW.filesUsed ≠ gsParentW.filesUsed := by
  refine ⟨?_, by decide, by decide⟩
  decide

end Sorbet
namespace Sorbet

/-- C6: after `mergeFileChanges`, (1) the queue length plus the number of
messages merged away equals the original length (the function's own
`ENFORCE`); (2) non-edit messages are preserved in order; (3) the
per-edit-kind running counts are preserved; (4) no bare edit message
survives — every edit-like message left is a merged workspace edit; and
(5) the first maximal run of consecutive edits (separated only by
delayable non-edits) is replaced by a single merged workspace-edit message
sitting at the position of the run's earliest edit, followed by the
skipped delayable messages in order, and carrying counts that sum the
merged messages' counts. -/
theorem spec_c6 (q : List LSPMessage) (hwf : ∀ m ∈ q, m.wf) :
    ((mergeFileChanges q).length + mergedCount q = q.length) ∧
    ((mergeFileChanges q).filter (fun m => !(isEdit m)) =
      q.filter (fun m => !(isEdit m))) ∧
    (sumCounts (mergeFileChanges q) = sumCounts q) ∧
    (∀ x ∈ mergeFileChanges q, isEdit x = true →
      ∃ cts chs, x = LSPMessage.workspaceEdit cts chs) ∧
    (∀ pre m rest, q = pre ++ m :: rest → (∀ x ∈ pre, isEdit x = false) →
      isEdit m = true →
      ∃ st0, tryPreMerge m emptyMergeState = Option.some st0 ∧
        ∃ merged, performMerge (mergeRun st0 rest).state = Option.some merged ∧
          mergeFileChanges q =
            pre ++ merged :: (mergeRun st0 rest).kept ++
              mergeFileChanges (mergeRun st0 rest).rest ∧
          (∀ x ∈ (mergeRun st0 rest).kept, isEdit x = false ∧ x.isDelayable = true) ∧
          addCounts (msgCounts merged)
              (addCounts (sumCounts (mergeRun st0 rest).kept)
                (sumCounts (mergeRun st0 rest).rest)) =
            sumCounts (m :: rest)) := by
  refine ⟨mergeFileChanges_length q hwf, mergeFileChanges_filter q,
    mergeFileChanges_counts q hwf, mergeFileChanges_all_merged q, ?_⟩
  intro pre m rest hq hpre hedit
  have hwfm : m.wf := hwf m (by rw [hq]; exact List.mem_append_right pre (List.mem_cons_self m rest))
  have hsome : ∃ st0, tryPreMerge m emptyMergeState = Option.some st0 := by
    have := tryPreMerge_isSome m emptyMergeState
    rw [hedit] at this
    exact Option.isSome_iff_exists.mp this
  rcases hsome with ⟨st0, hst0⟩
  refine ⟨st0, hst0, ?_⟩
  have hne : stNonempty (mergeRun st0 rest).state :=
    mergeRun_state_nonempty rest (tryPreMerge_nonempty hwfm hst0)
  refine ⟨_, performMerge_of_nonempty hne, ?_, ?_, ?_⟩
  · rw [hq, mergeFileChanges_skipNonEdits pre (m :: rest) hpre,
      mergeFileChanges_cons_edit hst0, performMerge_of_nonempty hne]
    simp
  · exact fun x hx => ⟨mergeRun_kept_nonEdit st0 rest x hx,
      mergeRun_kept_delayable st0 rest x hx⟩
  · have hcounts := mergeRun_counts st0 rest
    have hst0c : st0.counts = msgCounts m := by
      rw [tryPreMerge_counts hst0]
      show addCounts zeroCounts (msgCounts m) = msgCounts m
      exact zero_addCounts _
    rw [hst0c] at hcounts
    have hkept : sumCounts (mergeRun st0 rest).kept = zeroCounts :=
      sumCounts_nonEdit (mergeRun_kept_nonEdit st0 rest)
    show addCounts (mergeRun st0 rest).state.counts _ = _
    rw [hkept, zero_addCounts, hcounts, sumCounts_cons]

/-- Witness for C6 at a concrete queue with one edit run. -/
theorem spec_c6_witness :
    (mergeFileChanges exQueue).length + mergedCount exQueue = exQueue.length :=
  (spec_c6 exQueue (by intro m hm; fin_cases hm <;> trivial)).1

/-- C7: `cancelRequest` marks the first queued request whose id matches as
canceled — replacing exactly that element of the queue — and leaves the
queue unchanged, silently dropping the cancellation, when no queued
request matches. -/
theorem spec_c7 (q : List LSPMessage) (cid : Nat) :
    (q.findIdx? (LSPMessage.matchesCancel cid) = Option.none →
      cancelRequest q cid = q) ∧
    (∀ i m, q.findIdx? (LSPMessage.matchesCancel cid) = Option.some i →
      q.get? i = Option.some m → cancelRequest q cid = q.set i (markCanceled m)) :=
  cancelRequest_spec q cid

/-- Witness for C7: the request with id 5 is marked canceled in place;
a cancellation for the absent id 9 leaves the queue unchanged. -/
theorem spec_c7_witness :
    cancelRequest [LSPMessage.other false, LSPMessage.request 5 false true] 5 =
      [LSPMessage.other false, LSPMessage.request 5 true true] ∧
    cancelRequest [LSPMessage.other false, LSPMessage.request 5 false true] 9 =
      [LSPMessage.other false, LSPMessage.request 5 false true] := by
  constructor
  · have h := (spec_c7 [LSPMessage.other false, LSPMessage.request 5 false true] 5).2
      1 (LSPMessage.request 5 false true) (by decide) (by decide)
    simpa using h
  · exact (spec_c7 [LSPMessage.other false, LSPMessage.request 5 false true] 9).1
      (by decide)

/-- C8: the coordinator loop waits exactly when the queue condition
`terminate || (!paused && queue nonempty)` is false; it never pops a
message while paused (the `ENFORCE(!paused)` aborts first); and when
`terminate` is set with a nonzero error code it raises
`EarlyReturnWithCode` rather than processing another message. -/
theorem spec_c8 (s : QueueState) :
    (loopStep s = .waitForWork ↔ queueCond s = false) ∧
    (s.paused = true → ∀ m rest, loopStep s ≠ .processMessage m rest) ∧
    (s.terminate = true → s.errorCode ≠ 0 → s.paused = false →
      loopStep s = .earlyReturnWithCode s.errorCode) ∧
    (s.terminate = true → s.errorCode ≠ 0 →
      ∀ m rest, loopStep s ≠ .processMessage m rest) := by
  refine ⟨⟨?_, ?_⟩, ?_, ?_, ?_⟩
  · intro hw
    by_contra hc
    have hcond : queueCond s = true := by
      cases hq : queueCond s
      · exact absurd hq hc
      · rfl
    unfold loopStep at hw
    rw [if_neg (by simp [hcond])] at hw
    by_cases hp : s.paused = true
    · rw [if_pos hp] at hw; exact absurd hw (by simp)
    · rw [if_neg hp] at hw
      by_cases h3 : s.terminate = true ∧ s.errorCode ≠ 0
      · rw [if_pos h3] at hw; exact absurd hw (by simp)
      · rw [if_neg h3] at hw
        by_cases h4 : s.terminate = true ∧ s.pendingRequests.isEmpty = true
        · rw [if_pos h4] at hw; exact absurd hw (by simp)
        · rw [if_neg h4] at hw
          cases hm : s.pendingRequests with
          | nil => rw [hm] at hw; exact absurd hw (by simp)
          | cons m rest => rw [hm] at hw; exact absurd hw (by simp)
  · intro hcond
    unfold loopStep
    rw [if_pos hcond]
  · intro hpaused m rest
    unfold loopStep
    by_cases h1 : queueCond s = false
    · rw [if_pos h1]; simp
    · rw [if_neg h1, if_pos hpaused]; simp
  · intro hterm herr hpaused
    unfold loopStep
    rw [if_neg (by simp [queueCond, hterm]), if_neg (by simp [hpaused]),
      if_pos ⟨hterm, herr⟩]
  · intro hterm herr m rest
    unfold loopStep
    by_cases h1 : queueCond s = false
    · rw [if_pos h1]; simp
    · rw [if_neg h1]
      by_cases hp : s.paused = true
      · rw [if_pos hp]; simp
      · rw [if_neg hp, if_pos (⟨hterm, herr⟩ : s.terminate = true ∧ s.errorCode ≠ 0)]
        simp

/-- Witness for C8: a terminated, unpaused queue with error code 3 takes the
`EarlyReturnWithCode` branch. -/
theorem spec_c8_witness :
    loopStep ⟨[], true, false, 3⟩ = LoopAction.earlyReturnWithCode 3 :=
  (spec_c8 ⟨[], true, false, 3⟩).2.2.1 rfl (by decide) rfl

end Sorbet
namespace Sorbet

/-- C9: every `Loc` built by the public constructor satisfies
`begin <= end <= SENTINEL`; `Loc::none` stores the sentinel in both
offsets; and `exists()` is false exactly when the file reference is 0 or
either offset equals the sentinel. -/
theorem spec_c9 :
    (∀ f b e l, Loc.mk? f b e = Option.some l →
      l.beginLoc ≤ l.endLoc ∧ l.endLoc ≤ INVALID_POS_LOC) ∧
    (∀ f, (Loc.locNone f).beginLoc = INVALID_POS_LOC ∧
      (Loc.locNone f).endLoc = INVALID_POS_LOC) ∧
    (∀ l : Loc, l.exists' = false ↔
      (l.fileRef = 0 ∨ l.beginLoc = INVALID_POS_LOC ∨ l.endLoc = INVALID_POS_LOC)) := by
  refine ⟨?_, fun f => ⟨rfl, rfl⟩, ?_⟩
  · intro f b e l hl
    unfold Loc.mk? at hl
    split_ifs at hl with hcond
    injection hl with hl
    subst hl
    rcases hcond with ⟨hb, he, hbe⟩
    have hbm : b % 2 ^ 24 = b := Nat.mod_eq_of_lt (lt_of_le_of_lt hb (by decide))
    have hem : e % 2 ^ 24 = e := Nat.mod_eq_of_lt (lt_of_le_of_lt he (by decide))
    constructor
    · show b % 2 ^ 24 ≤ e % 2 ^ 24
      rw [hbm, hem]; exact hbe
    · show e % 2 ^ 24 ≤ INVALID_POS_LOC
      rw [hem]; exact he
  · intro l
    unfold Loc.exists'
    constructor
    · intro hfalse
      by_contra hc
      push_neg at hc
      rcases hc with ⟨h1, h2, h3⟩
      rw [decide_eq_true h1, decide_eq_true h3, decide_eq_true h2] at hfalse
      simp at hfalse
    · intro hor
      rcases hor with h | h | h <;> simp [h]

/-- Witness for C9: the constructor accepts `(file 1, 2, 5)` and the
resulting location satisfies the invariant. -/
theorem spec_c9_witness :
    (⟨2, 5, 1⟩ : Loc).beginLoc ≤ (⟨2, 5, 1⟩ : Loc).endLoc ∧
    (⟨2, 5, 1⟩ : Loc).endLoc ≤ INVALID_POS_LOC :=
  spec_c9.1 1 2 5 ⟨2, 5, 1⟩ (by decide)

set_option maxRecDepth 100000 in
/-- C10 (the code violates the claim's `MAX_RESULTS` bound): on a symbol
table with sixty matching symbols, `doQuery` with the default limit of 50
returns sixty `SymbolInformation` entries — the limit check's `break`
leaves only the inner location loop, so every later candidate still
appends an entry. -/
theorem spec_c10 : MAX_RESULTS < (doQuery exGS "a" MAX_RESULTS).length := by
  decide

end Sorbet
